import Mathlib

/-!
Verification development for the kronos schedule merge / row-lifecycle engine
(`schedule_service.py`) and the zoom identity-resolution engine
(`services/zoom_utils.py`, `services/zoom_assignment_service.py`).

The Python code is shallowly embedded: dict-shaped rows become structures,
the `status` string field (always `"active"` or `"deleted"`) becomes a
two-constructor inductive, `uuid.uuid4()` fresh-id generation becomes an
explicit natural-number id supply threaded through the merge, and Python
`set` objects used only for membership become lists queried with `∈`.
-/

/-- Lifecycle status of a stored row: the Python code stores the strings
`"active"` and `"deleted"` and never any other value. -/
inductive RowStatus where
  | active : RowStatus
  | deleted : RowStatus
deriving DecidableEq, Repr

/-- The canonical parsed row (`Schedule` namedtuple in `config.py`): the ten
business fields produced by the parser.  `minutes` and `units` are the two
numeric fields (`getattr` defaults them to `0` in `merge_new_schedules`). -/
structure Schedule where
  date : String
  shift : String
  area : String
  start_time : String
  end_time : String
  code : String
  instructor : String
  group : String
  minutes : Nat
  units : Nat
deriving DecidableEq, Repr

/-- The 10-field business key tuple, as a structure (component order is the
fixed tuple order of `_get_business_key`; equality is componentwise value
equality, exactly as for the Python tuple). -/
structure BusinessKey where
  date : String
  shift : String
  area : String
  start_time : String
  end_time : String
  code : String
  instructor : String
  group : String
  minutes : Nat
  units : Nat
deriving DecidableEq, Repr

/-- `_get_business_key` of `schedule_service.py`: the tuple of the ten data
fields in fixed order. -/
def get_business_key (row_data : Schedule) : BusinessKey :=
  ⟨row_data.date, row_data.shift, row_data.area, row_data.start_time,
   row_data.end_time, row_data.code, row_data.instructor, row_data.group,
   row_data.minutes, row_data.units⟩

/-- A stored row (`{"id": ..., "status": ..., "data": ...}` dict in the
Python code).  Ids are modelled as naturals supplied by a counter. -/
structure StoredRow where
  id : Nat
  status : RowStatus
  data : Schedule
deriving DecidableEq, Repr

/-- `filter_active_rows` of `schedule_service.py`. -/
def filter_active_rows (all_rows : List StoredRow) : List StoredRow :=
  all_rows.filter (fun r => r.status = RowStatus.active)

/-- `get_deleted_rows_count` of `schedule_service.py`. -/
def get_deleted_rows_count (all_rows : List StoredRow) : Nat :=
  all_rows.length - (filter_active_rows all_rows).length

/-- The `rows_by_key` dictionary of `merge_new_schedules` maps each business
key to the **last** row with that key (Python dict comprehensions are
last-wins, and newly appended rows are registered immediately).  Flipping the
found row's status mutates it in place in `all_rows`.  This function performs
one `rows_by_key.get` lookup followed by the in-place reactivation: it
returns `some updatedRows` when a row with key `k` exists (the last such row
flipped from deleted to active if necessary), and `none` when no row has key
`k`. -/
def reactivateRow (r : StoredRow) : StoredRow :=
  if r.status = RowStatus.deleted then { r with status := RowStatus.active } else r

/-- See the comment on `reactivateRow`: lookup of `k` in `rows_by_key`
followed by the conditional in-place status flip of the found row. -/
def reactivateByKey (k : BusinessKey) : List StoredRow → Option (List StoredRow)
  | [] => none
  | r :: rs =>
    match reactivateByKey k rs with
    | some rs2 => some (r :: rs2)
    | none =>
      if get_business_key r.data = k then
        some (reactivateRow r :: rs)
      else none

/-- One iteration of the `for schedule in new_schedules` loop of
`merge_new_schedules`: look the key up; if found, reactivate in place (no new
row); otherwise append a brand-new active row with the next fresh id and
register it immediately.  The state is the combined row list (existing rows
followed by the new entries created so far, which is the final `extend`
order) together with the fresh-id counter. -/
def mergeSchedule (acc : List StoredRow × Nat) (s : Schedule) : List StoredRow × Nat :=
  match reactivateByKey (get_business_key s) acc.1 with
  | some rows2 => (rows2, acc.2)
  | none => (acc.1 ++ [⟨acc.2, RowStatus.active, s⟩], acc.2 + 1)

/-- `merge_new_schedules` of `schedule_service.py`.  `next_id` models the
`uuid.uuid4()` supply: new rows receive ids `next_id`, `next_id + 1`, …. -/
def merge_new_schedules (current_rows : List StoredRow) (new_schedules : List Schedule)
    (next_id : Nat) : List StoredRow :=
  (new_schedules.foldl mergeSchedule (current_rows, next_id)).1

/-- The `for row in all_rows` loop of `delete_rows_by_id`: flip
`active` rows whose id is in the set to `deleted`, counting the flips. -/
def deleteLoop (ids_to_delete : List Nat) : List StoredRow → List StoredRow × Nat
  | [] => ([], 0)
  | r :: rs =>
    let rest := deleteLoop ids_to_delete rs
    if r.id ∈ ids_to_delete ∧ r.status = RowStatus.active then
      ({ r with status := RowStatus.deleted } :: rest.1, rest.2 + 1)
    else
      (r :: rest.1, rest.2)

/-- `delete_rows_by_id` of `schedule_service.py`: returns the new row list
and the number of rows actually flipped to `deleted`. -/
def delete_rows_by_id (current_rows : List StoredRow) (ids_to_delete : List Nat) :
    List StoredRow × Nat :=
  deleteLoop ids_to_delete current_rows

/-- The `for row in all_rows` loop of `restore_deleted_rows`, threading
the running `active_rows_set` (modelled as a list queried by membership):
a deleted row is flipped back to active exactly when its key is not in the
running set, and its key is then added to the set. -/
def restoreLoop (active_set : List BusinessKey) :
    List StoredRow → List StoredRow × Nat
  | [] => ([], 0)
  | r :: rs =>
    if r.status = RowStatus.deleted then
      let k := get_business_key r.data
      if k ∈ active_set then
        let rest := restoreLoop active_set rs
        (r :: rest.1, rest.2)
      else
        let rest := restoreLoop (k :: active_set) rs
        ({ r with status := RowStatus.active } :: rest.1, rest.2 + 1)
    else
      let rest := restoreLoop active_set rs
      (r :: rest.1, rest.2)

/-- `restore_deleted_rows` of `schedule_service.py`: the running set starts
as the keys of all currently-active rows. -/
def restore_deleted_rows (current_rows : List StoredRow) : List StoredRow × Nat :=
  restoreLoop ((filter_active_rows current_rows).map (fun r => get_business_key r.data))
    current_rows

/-- Business keys of the active rows of a collection, in list order. -/
def activeKeys (rows : List StoredRow) : List BusinessKey :=
  (filter_active_rows rows).map (fun r => get_business_key r.data)

/-- Business keys of all rows of a collection, in list order. -/
def allKeys (rows : List StoredRow) : List BusinessKey :=
  rows.map (fun r => get_business_key r.data)

/-- The key invariant driving merge idempotence: some row carries key `k`,
and the last row carrying `k` (the one `rows_by_key` points at) is already
active, so the lookup-and-reactivate step is a no-op on `rows`. -/
def LastKeyActive (k : BusinessKey) (rows : List StoredRow) : Prop :=
  reactivateByKey k rows = some rows

/-! ### Character-level model of the text pipeline (`services/zoom_utils.py`)

Python strings are modelled as `List Char`.  The Unicode primitives are
modelled over the character repertoire the pipeline is used on (ASCII plus
the Spanish accented letters and their combining marks): `str.lower` /
`str.casefold` as a table of uppercase → lowercase mappings (identity
elsewhere), `unicodedata.normalize("NFKD", ·)` as a table decomposing each
precomposed accented letter into its base letter followed by a combining
mark, `unicodedata.combining` as membership in the set of those combining
marks, `\w` as ASCII alphanumerics, underscore, the accented letters and
the modifier letter ʻ (U+02BB, a word character in Python), and `\s` as
the common whitespace characters.
-/

def pyLowerTable : List (Char × Char) :=
  [('A', 'a'), ('B', 'b'), ('C', 'c'), ('D', 'd'), ('E', 'e'), ('F', 'f'),
   ('G', 'g'), ('H', 'h'), ('I', 'i'), ('J', 'j'), ('K', 'k'), ('L', 'l'),
   ('M', 'm'), ('N', 'n'), ('O', 'o'), ('P', 'p'), ('Q', 'q'), ('R', 'r'),
   ('S', 's'), ('T', 't'), ('U', 'u'), ('V', 'v'), ('W', 'w'), ('X', 'x'),
   ('Y', 'y'), ('Z', 'z'), ('Á', 'á'), ('É', 'é'), ('Í', 'í'), ('Ó', 'ó'),
   ('Ú', 'ú'), ('Ü', 'ü'), ('Ñ', 'ñ')]

/-- Character-wise `str.lower` (and `str.casefold`, which agrees with it on
the modelled repertoire). -/
def pyLower (c : Char) : Char :=
  match pyLowerTable.find? (fun p => p.1 == c) with
  | some p => p.2
  | none => c

def nfkdTable : List (Char × List Char) :=
  [('á', ['a', '\u0301']),
   ('é', ['e', '\u0301']),
   ('í', ['i', '\u0301']),
   ('ó', ['o', '\u0301']),
   ('ú', ['u', '\u0301']),
   ('ü', ['u', '\u0308']),
   ('ñ', ['n', '\u0303']),
   ('Á', ['A', '\u0301']),
   ('É', ['E', '\u0301']),
   ('Í', ['I', '\u0301']),
   ('Ó', ['O', '\u0301']),
   ('Ú', ['U', '\u0301']),
   ('Ü', ['U', '\u0308']),
   ('Ñ', ['N', '\u0303'])]

/-- Character-wise NFKD decomposition. -/
def nfkdChar (c : Char) : List Char :=
  match nfkdTable.find? (fun p => p.1 == c) with
  | some p => p.2
  | none => [c]

/-- `unicodedata.combining(c) != 0` on the modelled repertoire. -/
def combiningChar (c : Char) : Bool :=
  c == '\u0301' || c == '\u0303' || c == '\u0308'

/-- The regex `\d` class (code points 48–57). -/
def isDigitChar (c : Char) : Bool :=
  48 ≤ c.toNat && c.toNat ≤ 57

def accentedLetter (c : Char) : Bool :=
  c == 'á' || c == 'é' || c == 'í' || c == 'ó' || c == 'ú' || c == 'ü' || c == 'ñ' ||
  c == 'Á' || c == 'É' || c == 'Í' || c == 'Ó' || c == 'Ú' || c == 'Ü' || c == 'Ñ'

/-- The regex `\w` class: ASCII letters (code points 97–122 and 65–90),
digits, underscore, the accented letters, and the modifier letter ʻ. -/
def isWordChar (c : Char) : Bool :=
  (97 ≤ c.toNat && c.toNat ≤ 122) || (65 ≤ c.toNat && c.toNat ≤ 90) ||
  isDigitChar c || c == '_' || accentedLetter c || c == 'ʻ'

/-- The regex `\s` class. -/
def isSpaceChar (c : Char) : Bool :=
  c == ' ' || c == '\t' || c == '\n' || c == '\r'

/-- `re.findall(r"\w+", ·)`: the maximal runs of word characters, collected
with an explicit current-token accumulator. -/
def findWordsAux : List Char → List Char → List (List Char)
  | [], acc => if acc.isEmpty then [] else [acc]
  | c :: cs, acc =>
    if isWordChar c then findWordsAux cs (acc ++ [c])
    else if acc.isEmpty then findWordsAux cs []
    else acc :: findWordsAux cs []

def findWords (l : List Char) : List (List Char) :=
  findWordsAux l []

/-- `" ".join(tokens)`. -/
def joinWords : List (List Char) → List Char
  | [] => []
  | [t] => t
  | t :: t2 :: ts => t ++ ' ' :: joinWords (t2 :: ts)

/-- The alternatives of the `IRRELEVANT_WORDS` regex with their optional
suffixes expanded: `electiv[oa]s?`, `leccion[es]?`, `repit[eo]?` and
`evaluacion[es]?` each contribute every concrete form. -/
def IRRELEVANT_WORDS : List String :=
  ["online", "presencial", "virtual", "hibrido", "remoto",
   "english", "espanol", "aleman", "coreano", "chino", "ruso", "japones",
   "frances", "italiano", "mandarin",
   "nivelacion", "beginner",
   "electivo", "electiva", "electivos", "electivas",
   "leccion", "leccione", "leccions",
   "repit", "repite", "repito",
   "repaso", "crash", "complete", "revision",
   "evaluacion", "evaluacione", "evaluacions",
   "grupo", "bvp", "bvs", "pia", "mod", "otg", "kids",
   "per", "ven", "arg", "uru",
   "true", "business", "impact", "social", "travel", "gerencia", "beca",
   "camacho"]

def isDigitRun (l : List Char) : Bool :=
  !l.isEmpty && l.all isDigitChar

/-- `IRRELEVANT_WORDS.search(token)` for a `\w+` token.  Inside such a token
every character is a word character, so the `\b` anchors can only sit at the
token's ends and `.search` amounts to matching the whole token against one
alternative (case-insensitively, hence the lowering); the `\s?` in
`look\s?\d+` can only match the empty string inside a token, and `tz\d+`
needs at least one digit. -/
def tokenIrrelevant (t : List Char) : Bool :=
  let low := t.map pyLower
  (IRRELEVANT_WORDS.map String.data).contains low
  || (low.take 4 == "look".data && isDigitRun (low.drop 4))
  || (low.take 2 == "tz".data && isDigitRun (low.drop 2))

/-- `remove_irrelevant` of `zoom_utils.py`: lower, split into `\w+` tokens,
drop the tokens the stopword regex matches, re-join with single blanks. -/
def remove_irrelevant_chars (text : List Char) : List Char :=
  joinWords ((findWords (text.map pyLower)).filter (fun t => !(tokenIrrelevant t)))

def nfkdStr (l : List Char) : List Char :=
  l.flatMap nfkdChar

def stripCombining (l : List Char) : List Char :=
  l.filter (fun c => !(combiningChar c))

/-- `canonical` of `zoom_utils.py`: stopword removal, NFKD, drop combining
marks, strip all non-word characters (`re.sub(r"\W+", "", ·)`), casefold. -/
def canonical_chars (s : List Char) : List Char :=
  let s1 := remove_irrelevant_chars s
  let s2 := stripCombining (nfkdStr s1)
  let s3 := s2.filter isWordChar
  s3.map pyLower

def canonical (s : String) : String :=
  ⟨canonical_chars s.data⟩

/-- The character class of `re.sub(r"[''ʻ‚]", "'", ·)` (the first two class
members in the source are both the ASCII apostrophe). -/
def isApostropheVariant (c : Char) : Bool :=
  c == '\'' || c == 'ʻ' || c == '‚'

/-- The character class of `re.sub(r"[-_–—]", " ", ·)`. -/
def isDashChar (c : Char) : Bool :=
  c == '-' || c == '_' || c == '–' || c == '—'

/-- `re.sub(r"\s+", " ", ·)`: every maximal whitespace run becomes one
single blank. -/
def collapseSpaces : List Char → List Char
  | [] => []
  | [c] => if isSpaceChar c then [' '] else [c]
  | c :: c2 :: cs =>
    if isSpaceChar c then
      if isSpaceChar c2 then collapseSpaces (c2 :: cs)
      else ' ' :: collapseSpaces (c2 :: cs)
    else c :: collapseSpaces (c2 :: cs)

/-- `str.strip()`. -/
def pyStrip (l : List Char) : List Char :=
  ((l.dropWhile isSpaceChar).reverse.dropWhile isSpaceChar).reverse

/-- `normalizar_cadena` of `zoom_utils.py`, step for step: stopword removal,
NFKD, drop combining marks, strip + casefold, apostrophe variants to `'`,
dashes and underscore to blanks, remaining punctuation to blanks, collapse
whitespace runs, delete digits (`re.sub(r"\d+", "", ·)`), final strip. -/
def normalizar_cadena_chars (s : List Char) : List Char :=
  pyStrip (List.filter (fun c => !(isDigitChar c)) (collapseSpaces
    (List.map (fun c => if !(isWordChar c || isSpaceChar c || c == '\'') then ' ' else c)
      (List.map (fun c => if isDashChar c then ' ' else c)
        (List.map (fun c => if isApostropheVariant c then '\'' else c)
          (List.map pyLower (pyStrip (stripCombining (nfkdStr
            (remove_irrelevant_chars s))))))))))

def normalizar_cadena (s : String) : String :=
  ⟨normalizar_cadena_chars s.data⟩

/-- Charwise accent stripping (NFKD followed by dropping the combining
mark): the precomposed accented letters go to their base letter, everything
else is unchanged.  `map deAccent s` is "`s` with accents removed". -/
def deAccent (c : Char) : Char :=
  match nfkdTable.find? (fun p => p.1 == c) with
  | some p => p.2.headD c
  | none => c

/-- Detects a run of two or more consecutive whitespace characters. -/
def hasDoubleSpace : List Char → Bool
  | [] => false
  | [_] => false
  | c1 :: c2 :: cs => (isSpaceChar c1 && isSpaceChar c2) || hasDoubleSpace (c2 :: cs)

/-- Plain lowercase ASCII letter (code points 97–122). -/
def plainChar (c : Char) : Bool :=
  97 ≤ c.toNat && c.toNat ≤ 122

/-! ### Fuzzy identity resolver and assignment classifier
(`services/zoom_utils.py`, `services/zoom_assignment_service.py`)

The rapidfuzz scorer (`fuzz.token_set_ratio`) is an external library
function and is a parameter of `fuzzy_find` in the source; it is modelled as
an abstract `scorer : String → String → Nat`.  `process.extractOne` is the
library collaborator documented as: score every choice, keep the best
(first-seen wins ties), and return it only when its score reaches
`score_cutoff` (matches strictly below the cutoff are dropped, a match
exactly at the cutoff is kept).  Python dicts become association lists
looked up with `List.lookup`.
-/

/-- One scoring step of `process.extractOne`: keep the current best unless
the new candidate scores strictly higher; with no current best, a candidate
enters only when it reaches the cutoff. -/
def extractStep (scorer : String → String → Nat) (query : String) (score_cutoff : Nat)
    (best : Option (String × Nat)) (k : String) : Option (String × Nat) :=
  match best with
  | none => if score_cutoff ≤ scorer query k then some (k, scorer query k) else none
  | some (k0, s0) => if s0 < scorer query k then some (k, scorer query k)
                     else some (k0, s0)

/-- `rapidfuzz.process.extractOne` with `score_cutoff`. -/
def extractOne (scorer : String → String → Nat) (query : String)
    (keys : List String) (score_cutoff : Nat) : Option (String × Nat) :=
  keys.foldl (extractStep scorer query score_cutoff) none

/-- `fuzzy_find` of `zoom_utils.py` (`threshold` defaults to 85 at call
sites): empty query or empty candidate dict resolve to not-found without
scoring; otherwise the normalized query is scored against every key and the
best key's value is returned when its score reaches the threshold. -/
def fuzzy_find {α : Type} (raw : String) (choices : List (String × α))
    (scorer : String → String → Nat) (threshold : Nat) : Option α :=
  if raw == "" || choices.isEmpty then none
  else
    match extractOne scorer (normalizar_cadena raw) (choices.map (fun p => p.1))
        threshold with
    | some res => List.lookup res.1 choices
    | none => none

/-- `ZoomUser` of `zoom_assignment_service.py`. -/
structure ZoomUser where
  id : String
  email : String
  display_name : String
  key_canonical : String
deriving DecidableEq, Repr

/-- `ZoomMeeting` of `zoom_assignment_service.py`. -/
structure ZoomMeeting where
  id : String
  topic : String
  host_id : String
  key_canonical : String
deriving DecidableEq, Repr

/-- Meeting resolution in `classify_rows`: exact lookup of the strict
canonical key, then fuzzy fallback over the normalized-topic map. -/
def resolve_meeting (scorer : String → String → Nat)
    (meetings meetings_norm : List (String × ZoomMeeting)) (raw : String) :
    Option ZoomMeeting :=
  match List.lookup (canonical raw) meetings with
  | some m => some m
  | none => fuzzy_find raw meetings_norm scorer 85

/-- Instructor resolution in `classify_rows`: exact lookup of the strict
canonical key, then fuzzy fallback over the normalized-name map. -/
def resolve_user (scorer : String → String → Nat)
    (users users_norm : List (String × ZoomUser)) (raw : String) :
    Option ZoomUser :=
  match List.lookup (canonical raw) users with
  | some u => some u
  | none => fuzzy_find raw users_norm scorer 85

/-- One iteration of the `for _, row in df.iterrows()` loop of
`classify_rows`, as the triple of appends it contributes:
(to_update, ok, not_found).  `"Meeting not found"` is reported whenever the
meeting side is unresolved, regardless of the instructor side. -/
def classifyRow (scorer : String → String → Nat)
    (users : List (String × ZoomUser)) (meetings : List (String × ZoomMeeting))
    (users_norm : List (String × ZoomUser))
    (meetings_norm : List (String × ZoomMeeting)) (row : String × String) :
    List (ZoomMeeting × ZoomUser) × List (ZoomMeeting × ZoomUser) ×
      List (String × String × String) :=
  match resolve_meeting scorer meetings meetings_norm row.1,
        resolve_user scorer users users_norm row.2 with
  | none, _ => ([], [], [(row.1, row.2, "Meeting not found")])
  | some _, none => ([], [], [(row.1, row.2, "Instructor not found")])
  | some m, some u =>
    if m.host_id = u.id then ([], [(m, u)], [])
    else ([(m, u)], [], [])

/-- `classify_rows` of `zoom_assignment_service.py`: rows are `(Group,
Instructor)` string pairs; the three result lists accumulate in row order. -/
def classify_rows (scorer : String → String → Nat)
    (rows : List (String × String))
    (users : List (String × ZoomUser)) (meetings : List (String × ZoomMeeting))
    (users_norm : List (String × ZoomUser))
    (meetings_norm : List (String × ZoomMeeting)) :
    List (ZoomMeeting × ZoomUser) × List (ZoomMeeting × ZoomUser) ×
      List (String × String × String) :=
  rows.foldl
    (fun acc row =>
      let r := classifyRow scorer users meetings users_norm meetings_norm row
      (acc.1 ++ r.1, acc.2.1 ++ r.2.1, acc.2.2 ++ r.2.2))
    ([], [], [])

/-! ### Lemmas about `reactivateByKey` -/

/-- The lookup fails exactly when no row carries the key. -/
theorem reactivateByKey_eq_none_iff (k : BusinessKey) (rows : List StoredRow) :
    reactivateByKey k rows = none ↔ ∀ r ∈ rows, get_business_key r.data ≠ k := by
  induction rows with
  | nil => simp [reactivateByKey]
  | cons r rs ih =>
    unfold reactivateByKey
    cases h : reactivateByKey k rs with
    | some rs2 =>
      constructor
      · intro hc; cases hc
      · intro hall
        have hnone : reactivateByKey k rs = none :=
          ih.2 (fun r' hr' => hall r' (List.mem_cons_of_mem _ hr'))
        rw [hnone] at h; cases h
    | none =>
      by_cases hk : get_business_key r.data = k
      · simp only [if_pos hk]
        constructor
        · intro hc; cases hc
        · intro hall; exact absurd hk (hall r (List.mem_cons_self r rs))
      · simp only [if_neg hk]
        constructor
        · intro _ r' hr'
          rcases List.mem_cons.mp hr' with h1 | h2
          · subst h1; exact hk
          · exact (ih.mp h) r' h2
        · intro _; trivial

/-- A successful lookup means some row carries the key. -/
theorem reactivateByKey_isSome_mem {k : BusinessKey} {rows : List StoredRow}
    {rows2 : List StoredRow} (h : reactivateByKey k rows = some rows2) :
    ∃ r ∈ rows, get_business_key r.data = k := by
  by_contra hc
  push_neg at hc
  rw [(reactivateByKey_eq_none_iff k rows).2 hc] at h
  cases h

/-- `reactivateRow` keeps id and data, and never deactivates. -/
theorem reactivateRow_id (r : StoredRow) : (reactivateRow r).id = r.id := by
  unfold reactivateRow; split <;> rfl

theorem reactivateRow_data (r : StoredRow) : (reactivateRow r).data = r.data := by
  unfold reactivateRow; split <;> rfl

theorem reactivateRow_active (r : StoredRow) :
    (reactivateRow r).status = RowStatus.active := by
  unfold reactivateRow
  split
  · rfl
  · rename_i h
    cases hs : r.status with
    | active => rfl
    | deleted => exact absurd hs h

/-- Pointwise effect of a successful reactivation: same length, same ids,
same data, and statuses only ever move from `deleted` to `active`. -/
theorem reactivateByKey_forall₂ {k : BusinessKey} {rows rows2 : List StoredRow}
    (h : reactivateByKey k rows = some rows2) :
    List.Forall₂ (fun a b => b.id = a.id ∧ b.data = a.data ∧
      (a.status = RowStatus.active → b.status = RowStatus.active)) rows rows2 := by
  induction rows generalizing rows2 with
  | nil => cases h
  | cons r rs ih =>
    unfold reactivateByKey at h
    cases h2 : reactivateByKey k rs with
    | some rs2 =>
      rw [h2] at h
      simp only [Option.some.injEq] at h
      subst h
      exact List.Forall₂.cons ⟨rfl, rfl, fun hs => hs⟩ (ih h2)
    | none =>
      rw [h2] at h
      simp only [] at h
      split at h
      · simp only [Option.some.injEq] at h
        subst h
        refine List.Forall₂.cons ⟨reactivateRow_id r, reactivateRow_data r, ?_⟩ ?_
        · intro _; exact reactivateRow_active r
        · exact List.forall₂_same.2 (fun x _ => ⟨rfl, rfl, fun hs => hs⟩)
      · cases h

theorem reactivateByKey_length {k : BusinessKey} {rows rows2 : List StoredRow}
    (h : reactivateByKey k rows = some rows2) : rows2.length = rows.length :=
  ((reactivateByKey_forall₂ h).length_eq).symm

theorem reactivateByKey_allKeys {k : BusinessKey} {rows rows2 : List StoredRow}
    (h : reactivateByKey k rows = some rows2) : allKeys rows2 = allKeys rows := by
  have h2 := reactivateByKey_forall₂ h
  clear h
  unfold allKeys
  induction h2 with
  | nil => rfl
  | cons hab _ ih => simp [ih, hab.2.1]

theorem reactivateByKey_ids {k : BusinessKey} {rows rows2 : List StoredRow}
    (h : reactivateByKey k rows = some rows2) :
    rows2.map (fun r => r.id) = rows.map (fun r => r.id) := by
  have h2 := reactivateByKey_forall₂ h
  clear h
  induction h2 with
  | nil => rfl
  | cons hab _ ih => simp [ih, hab.1]

/-- Reactivating a list that ends in an active row carrying `k` is a no-op
(the dictionary points at the last row with the key). -/
theorem reactivateByKey_append_last {k : BusinessKey} {new : StoredRow}
    (rows : List StoredRow) (hk : get_business_key new.data = k)
    (ha : new.status = RowStatus.active) :
    reactivateByKey k (rows ++ [new]) = some (rows ++ [new]) := by
  induction rows with
  | nil =>
    simp only [List.nil_append, reactivateByKey, if_pos hk]
    simp [reactivateRow, ha]
  | cons r rs ih =>
    rw [List.cons_append]
    simp only [reactivateByKey]
    rw [ih]

/-- Appending a row with a different key commutes with reactivation. -/
theorem reactivateByKey_append_ne {k : BusinessKey} {r0 : StoredRow}
    (rows : List StoredRow) (hk : get_business_key r0.data ≠ k) :
    reactivateByKey k (rows ++ [r0]) =
      (reactivateByKey k rows).map (fun l => l ++ [r0]) := by
  induction rows with
  | nil =>
    simp only [List.nil_append, reactivateByKey, if_neg hk]
    rfl
  | cons r rs ih =>
    rw [List.cons_append]
    simp only [reactivateByKey]
    rw [ih]
    cases h : reactivateByKey k rs with
    | some l => simp
    | none =>
      simp only [Option.map_none]
      by_cases hr : get_business_key r.data = k
      · simp [if_pos hr]
      · simp [if_neg hr]

/-- `reactivateRow` is idempotent. -/
theorem reactivateRow_idem (r : StoredRow) :
    reactivateRow (reactivateRow r) = reactivateRow r := by
  cases hs : r.status <;> simp [reactivateRow, hs]

/-- A successful reactivation is idempotent: afterwards the last row with
key `k` is active, so a second lookup-and-reactivate is a no-op. -/
theorem reactivateByKey_some_fix {k : BusinessKey} {rows rows2 : List StoredRow}
    (h : reactivateByKey k rows = some rows2) : LastKeyActive k rows2 := by
  unfold LastKeyActive
  induction rows generalizing rows2 with
  | nil => cases h
  | cons r rs ih =>
    cases h2 : reactivateByKey k rs with
    | some rs2 =>
      simp only [reactivateByKey, h2, Option.some.injEq] at h
      subst h
      have hfix := ih h2
      simp only [reactivateByKey]
      rw [hfix]
    | none =>
      simp only [reactivateByKey, h2] at h
      split at h
      · rename_i hkey
        simp only [Option.some.injEq] at h
        subst h
        simp only [reactivateByKey]
        rw [h2]
        have hkey2 : get_business_key (reactivateRow r).data = k := by
          rw [reactivateRow_data]; exact hkey
        rw [if_pos hkey2, reactivateRow_idem]
      · cases h

/-- A failed lookup stays failed on any list with the same keys. -/
theorem reactivateByKey_none_of_allKeys {k : BusinessKey} {rows rows2 : List StoredRow}
    (hkeys : allKeys rows2 = allKeys rows) (h : reactivateByKey k rows = none) :
    reactivateByKey k rows2 = none := by
  rw [reactivateByKey_eq_none_iff] at h ⊢
  intro r hr hc
  have hmem : k ∈ allKeys rows2 := by
    unfold allKeys
    exact List.mem_map.2 ⟨r, hr, hc⟩
  rw [hkeys] at hmem
  unfold allKeys at hmem
  rcases List.mem_map.1 hmem with ⟨r', hr', hk'⟩
  exact h r' hr' hk'

/-- The no-op invariant for key `k` survives a reactivation at any key. -/
theorem reactivateByKey_fix_preserved {k k2 : BusinessKey} {rows rows2 : List StoredRow}
    (h1 : reactivateByKey k2 rows = some rows2) (h : LastKeyActive k rows) :
    LastKeyActive k rows2 := by
  unfold LastKeyActive at *
  induction rows generalizing rows2 with
  | nil => cases h1
  | cons r rs ih =>
    cases hk2 : reactivateByKey k rs with
    | some rs2 =>
      simp only [reactivateByKey, hk2, Option.some.injEq, List.cons.injEq] at h
      have hfix : reactivateByKey k rs = some rs := by rw [hk2, h.2]
      cases hk1 : reactivateByKey k2 rs with
      | some rs3 =>
        simp only [reactivateByKey, hk1, Option.some.injEq] at h1
        subst h1
        have := ih hk1 hfix
        simp only [reactivateByKey]
        rw [this]
      | none =>
        simp only [reactivateByKey, hk1] at h1
        split at h1
        · simp only [Option.some.injEq] at h1
          subst h1
          simp only [reactivateByKey]
          rw [hfix]
        · cases h1
    | none =>
      simp only [reactivateByKey, hk2] at h
      split at h
      · rename_i hkeyr
        simp only [Option.some.injEq, List.cons.injEq] at h
        have hflip : reactivateRow r = r := h.1
        cases hk1 : reactivateByKey k2 rs with
        | some rs3 =>
          simp only [reactivateByKey, hk1, Option.some.injEq] at h1
          subst h1
          have hnone : reactivateByKey k rs3 = none :=
            reactivateByKey_none_of_allKeys (reactivateByKey_allKeys hk1) hk2
          simp only [reactivateByKey]
          rw [hnone, if_pos hkeyr, hflip]
        | none =>
          simp only [reactivateByKey, hk1] at h1
          split at h1
          · simp only [Option.some.injEq] at h1
            subst h1
            simp only [reactivateByKey]
            rw [hflip, hk2, if_pos hkeyr, hflip]
          · cases h1
      · cases h

/-- After merging one schedule, its key's no-op invariant holds. -/
theorem LastKeyActive_mergeSchedule_self (acc : List StoredRow × Nat) (s : Schedule) :
    LastKeyActive (get_business_key s) (mergeSchedule acc s).1 := by
  unfold mergeSchedule
  cases hr : reactivateByKey (get_business_key s) acc.1 with
  | some rows2 => exact reactivateByKey_some_fix hr
  | none => exact reactivateByKey_append_last acc.1 rfl rfl

/-- The no-op invariant survives merging any further schedule. -/
theorem LastKeyActive_mergeSchedule {k : BusinessKey} {acc : List StoredRow × Nat}
    (h : LastKeyActive k acc.1) (s : Schedule) :
    LastKeyActive k (mergeSchedule acc s).1 := by
  unfold mergeSchedule
  cases hr : reactivateByKey (get_business_key s) acc.1 with
  | some rows2 => exact reactivateByKey_fix_preserved hr h
  | none =>
    unfold LastKeyActive at *
    by_cases hk : get_business_key s = k
    · exact reactivateByKey_append_last acc.1 hk rfl
    · rw [reactivateByKey_append_ne acc.1 hk, h]
      rfl

/-- The no-op invariant survives a whole fold of merges. -/
theorem LastKeyActive_foldl {k : BusinessKey} {acc : List StoredRow × Nat}
    (h : LastKeyActive k acc.1) (R : List Schedule) :
    LastKeyActive k ((R.foldl mergeSchedule acc).1) := by
  induction R generalizing acc with
  | nil => exact h
  | cons s R ih => exact ih (LastKeyActive_mergeSchedule h s)

/-- After a merge, every merged schedule's key satisfies the no-op
invariant: its last occurrence in the result is active. -/
theorem foldl_mergeSchedule_LastKeyActive (R : List Schedule) :
    ∀ acc : List StoredRow × Nat, ∀ s ∈ R,
      LastKeyActive (get_business_key s) ((R.foldl mergeSchedule acc).1) := by
  induction R with
  | nil => intro acc s hs; cases hs
  | cons t R ih =>
    intro acc s hs
    rcases List.mem_cons.mp hs with h1 | h2
    · subst h1
      exact LastKeyActive_foldl (LastKeyActive_mergeSchedule_self acc s) R
    · exact ih (mergeSchedule acc t) s h2

theorem merge_LastKeyActive (current_rows : List StoredRow) (R : List Schedule) (n : Nat) :
    ∀ s ∈ R, LastKeyActive (get_business_key s) (merge_new_schedules current_rows R n) :=
  foldl_mergeSchedule_LastKeyActive R (current_rows, n)

/-- Merging a schedule whose key's last occurrence is active is a no-op. -/
theorem mergeSchedule_fix {rows : List StoredRow} {m : Nat} {s : Schedule}
    (h : LastKeyActive (get_business_key s) rows) :
    mergeSchedule (rows, m) s = (rows, m) := by
  unfold LastKeyActive at h
  unfold mergeSchedule
  rw [h]

theorem foldl_mergeSchedule_fix {rows : List StoredRow} {m : Nat} {R : List Schedule}
    (h : ∀ s ∈ R, LastKeyActive (get_business_key s) rows) :
    R.foldl mergeSchedule (rows, m) = (rows, m) := by
  induction R with
  | nil => rfl
  | cons t R ih =>
    rw [List.foldl_cons, mergeSchedule_fix (h t (List.mem_cons_self t R))]
    exact ih (fun s hs => h s (List.mem_cons_of_mem t hs))

/-- C1: Merge is idempotent: re-merging the same batch into the output of a
first merge returns that output unchanged — no new rows and no new active
rows appear the second time. -/
theorem merge_new_schedules_idempotent (current_rows : List StoredRow)
    (new_schedules : List Schedule) (n1 n2 : Nat) :
    merge_new_schedules (merge_new_schedules current_rows new_schedules n1)
      new_schedules n2 = merge_new_schedules current_rows new_schedules n1 := by
  have hinv := merge_LastKeyActive current_rows new_schedules n1
  have h2 : merge_new_schedules (merge_new_schedules current_rows new_schedules n1)
      new_schedules n2 = (new_schedules.foldl mergeSchedule
        (merge_new_schedules current_rows new_schedules n1, n2)).1 := rfl
  rw [h2, foldl_mergeSchedule_fix hinv]

/-! ### Distinct-active-keys invariant (C2) -/

theorem status_eq_active_or_deleted (r : StoredRow) :
    r.status = RowStatus.active ∨ r.status = RowStatus.deleted := by
  cases r.status
  · exact Or.inl rfl
  · exact Or.inr rfl

theorem activeKeys_cons_active {r : StoredRow} (rs : List StoredRow)
    (h : r.status = RowStatus.active) :
    activeKeys (r :: rs) = get_business_key r.data :: activeKeys rs := by
  simp [activeKeys, filter_active_rows, List.filter_cons, h]

theorem activeKeys_cons_deleted {r : StoredRow} (rs : List StoredRow)
    (h : r.status = RowStatus.deleted) :
    activeKeys (r :: rs) = activeKeys rs := by
  have : ¬ (r.status = RowStatus.active) := by rw [h]; intro hc; cases hc
  simp [activeKeys, filter_active_rows, List.filter_cons, this]

theorem mem_activeKeys_iff {k : BusinessKey} {rows : List StoredRow} :
    k ∈ activeKeys rows ↔
      ∃ r ∈ rows, r.status = RowStatus.active ∧ get_business_key r.data = k := by
  unfold activeKeys filter_active_rows
  constructor
  · intro h
    rcases List.mem_map.1 h with ⟨r, hr, hk⟩
    rcases List.mem_filter.1 hr with ⟨hmem, hst⟩
    exact ⟨r, hmem, by simpa using hst, hk⟩
  · rintro ⟨r, hmem, hst, hk⟩
    exact List.mem_map.2 ⟨r, List.mem_filter.2 ⟨hmem, by simpa using hst⟩, hk⟩

theorem activeKeys_sublist_allKeys (rows : List StoredRow) :
    (activeKeys rows).Sublist (allKeys rows) := by
  unfold activeKeys allKeys filter_active_rows
  exact (List.filter_sublist rows).map (fun r => get_business_key r.data)

/-- One merge step keeps all business keys pairwise distinct. -/
theorem mergeSchedule_allKeys_nodup {acc : List StoredRow × Nat} (s : Schedule)
    (h : (allKeys acc.1).Nodup) : (allKeys (mergeSchedule acc s).1).Nodup := by
  unfold mergeSchedule
  cases hr : reactivateByKey (get_business_key s) acc.1 with
  | some rows2 =>
    simpa [reactivateByKey_allKeys hr] using h
  | none =>
    have hnot : get_business_key s ∉ allKeys acc.1 := by
      intro hc
      unfold allKeys at hc
      rcases List.mem_map.1 hc with ⟨r, hr2, hk⟩
      exact (reactivateByKey_eq_none_iff _ _).1 hr r hr2 hk
    simp only [allKeys, List.map_append, List.map_cons, List.map_nil]
    rw [List.nodup_append]
    refine ⟨h, List.nodup_singleton _, ?_⟩
    intro a ha hb
    simp only [List.mem_singleton] at hb
    subst hb
    exact hnot ha

theorem merge_allKeys_nodup (rows : List StoredRow) (R : List Schedule) (n : Nat)
    (h : (allKeys rows).Nodup) : (allKeys (merge_new_schedules rows R n)).Nodup := by
  unfold merge_new_schedules
  suffices hgen : ∀ acc : List StoredRow × Nat, (allKeys acc.1).Nodup →
      (allKeys ((R.foldl mergeSchedule acc).1)).Nodup from hgen (rows, n) h
  induction R with
  | nil => intro acc hacc; exact hacc
  | cons t R ih =>
    intro acc hacc
    exact ih (mergeSchedule acc t) (mergeSchedule_allKeys_nodup t hacc)

/-- Deletion only removes keys from the active set. -/
theorem deleteLoop_activeKeys_sublist (ids : List Nat) (rows : List StoredRow) :
    (activeKeys (deleteLoop ids rows).1).Sublist (activeKeys rows) := by
  induction rows with
  | nil => simp [deleteLoop]
  | cons r rs ih =>
    unfold deleteLoop
    by_cases hc : r.id ∈ ids ∧ r.status = RowStatus.active
    · rw [if_pos hc]
      rw [activeKeys_cons_active rs hc.2]
      have hdel : activeKeys ({ r with status := RowStatus.deleted } :: (deleteLoop ids rs).1)
          = activeKeys (deleteLoop ids rs).1 := activeKeys_cons_deleted _ rfl
      rw [hdel]
      exact ih.cons _
    · rw [if_neg hc]
      rcases status_eq_active_or_deleted r with ha | hd
      · rw [activeKeys_cons_active rs ha, activeKeys_cons_active (deleteLoop ids rs).1 ha]
        exact ih.cons₂ _
      · rw [activeKeys_cons_deleted rs hd, activeKeys_cons_deleted (deleteLoop ids rs).1 hd]
        exact ih

/-- Core restore invariant: if the active keys of the remaining rows are
pairwise distinct and all contained in the running set, the processed output
has pairwise-distinct active keys, each of which is either an original
active key or a key newly absent from the running set. -/
theorem restoreLoop_active_nodup (rows : List StoredRow) :
    ∀ keys : List BusinessKey, (activeKeys rows).Nodup →
      (∀ r ∈ rows, r.status = RowStatus.active → get_business_key r.data ∈ keys) →
      (activeKeys (restoreLoop keys rows).1).Nodup ∧
        ∀ k ∈ activeKeys (restoreLoop keys rows).1,
          k ∈ activeKeys rows ∨ k ∉ keys := by
  induction rows with
  | nil =>
    intro keys _ _
    constructor
    · simp [restoreLoop, activeKeys, filter_active_rows]
    · intro k hk
      simp [restoreLoop, activeKeys, filter_active_rows] at hk
  | cons r rs ih =>
    intro keys hnd hsub
    have hsub' : ∀ r' ∈ rs, r'.status = RowStatus.active →
        get_business_key r'.data ∈ keys :=
      fun r' hr' => hsub r' (List.mem_cons_of_mem r hr')
    have hActiveInKeys : ∀ k ∈ activeKeys rs, k ∈ keys := by
      intro k hk
      rcases mem_activeKeys_iff.1 hk with ⟨r', hr', hst, hkey⟩
      rw [← hkey]
      exact hsub' r' hr' hst
    rcases status_eq_active_or_deleted r with ha | hd
    · -- active row: untouched, key already registered
      have hne : ¬ (r.status = RowStatus.deleted) := by
        rw [ha]; intro hc; cases hc
      have hout : (restoreLoop keys (r :: rs)).1 = r :: (restoreLoop keys rs).1 := by
        simp only [restoreLoop, if_neg hne]
      rw [activeKeys_cons_active rs ha] at hnd
      have hnd' := (List.nodup_cons.1 hnd).2
      have hnotmem := (List.nodup_cons.1 hnd).1
      rcases ih keys hnd' hsub' with ⟨ihnd, ihsub⟩
      rw [hout, activeKeys_cons_active _ ha]
      constructor
      · rw [List.nodup_cons]
        refine ⟨?_, ihnd⟩
        intro hc
        rcases ihsub _ hc with hin | hnin
        · exact hnotmem hin
        · exact hnin (hsub r (List.mem_cons_self r rs) ha)
      · intro k hk
        rcases List.mem_cons.1 hk with h1 | h2
        · subst h1
          exact Or.inl (by rw [activeKeys_cons_active rs ha]; exact List.mem_cons_self _ _)
        · rcases ihsub k h2 with hin | hnin
          · exact Or.inl (by rw [activeKeys_cons_active rs ha]; exact List.mem_cons_of_mem _ hin)
          · exact Or.inr hnin
    · -- deleted row
      rw [activeKeys_cons_deleted rs hd] at hnd
      by_cases hmem : get_business_key r.data ∈ keys
      · have hout : (restoreLoop keys (r :: rs)).1 = r :: (restoreLoop keys rs).1 := by
          simp only [restoreLoop, if_pos hd, if_pos hmem]
        rcases ih keys hnd hsub' with ⟨ihnd, ihsub⟩
        rw [hout, activeKeys_cons_deleted _ hd]
        refine ⟨ihnd, ?_⟩
        intro k hk
        rcases ihsub k hk with hin | hnin
        · exact Or.inl (by rw [activeKeys_cons_deleted rs hd]; exact hin)
        · exact Or.inr hnin
      · -- restored: status flipped to active, key added to the running set
        have hout : (restoreLoop keys (r :: rs)).1 =
            { r with status := RowStatus.active } ::
              (restoreLoop (get_business_key r.data :: keys) rs).1 := by
          simp only [restoreLoop, if_pos hd, if_neg hmem]
        have hsub2 : ∀ r' ∈ rs, r'.status = RowStatus.active →
            get_business_key r'.data ∈ get_business_key r.data :: keys :=
          fun r' hr' hst => List.mem_cons_of_mem _ (hsub' r' hr' hst)
        rcases ih (get_business_key r.data :: keys) hnd hsub2 with ⟨ihnd, ihsub⟩
        have hflipkey : get_business_key ({ r with status := RowStatus.active } : StoredRow).data
            = get_business_key r.data := rfl
        rw [hout, activeKeys_cons_active _ rfl, hflipkey]
        constructor
        · rw [List.nodup_cons]
          refine ⟨?_, ihnd⟩
          intro hc
          rcases ihsub _ hc with hin | hnin
          · exact hmem (hActiveInKeys _ hin)
          · exact hnin (List.mem_cons_self _ _)
        · intro k hk
          rcases List.mem_cons.1 hk with h1 | h2
          · subst h1
            exact Or.inr hmem
          · rcases ihsub k h2 with hin | hnin
            · exact Or.inl (by rw [activeKeys_cons_deleted rs hd]; exact hin)
            · exact Or.inr (fun hc => hnin (List.mem_cons_of_mem _ hc))

/-- Restore preserves distinctness of active keys. -/
theorem restore_activeKeys_nodup (rows : List StoredRow)
    (h : (activeKeys rows).Nodup) :
    (activeKeys (restore_deleted_rows rows).1).Nodup := by
  unfold restore_deleted_rows
  have hsub : ∀ r ∈ rows, r.status = RowStatus.active →
      get_business_key r.data ∈ (filter_active_rows rows).map
        (fun r => get_business_key r.data) := by
    intro r hr hst
    exact List.mem_map.2 ⟨r, List.mem_filter.2 ⟨hr, by simpa using hst⟩, rfl⟩
  exact (restoreLoop_active_nodup rows _ h hsub).1

/-- C2 as literally stated is false: merge can produce two active rows with
the same business key (an active row followed by a deleted duplicate: the
last-wins key index points at the deleted one and reactivates it), and
`restore_all` on a collection that already has duplicate active keys keeps
them.  Both failures at explicit concrete inputs. -/
theorem lifecycle_distinct_active_keys_cex :
    (activeKeys [⟨0, RowStatus.active, ⟨"d","","","","","","","",0,0⟩⟩,
                 ⟨1, RowStatus.deleted, ⟨"d","","","","","","","",0,0⟩⟩]).Nodup ∧
    ¬ (activeKeys (merge_new_schedules
        [⟨0, RowStatus.active, ⟨"d","","","","","","","",0,0⟩⟩,
         ⟨1, RowStatus.deleted, ⟨"d","","","","","","","",0,0⟩⟩]
        [⟨"d","","","","","","","",0,0⟩] 2)).Nodup ∧
    ¬ (activeKeys (restore_deleted_rows
        [⟨0, RowStatus.active, ⟨"d","","","","","","","",0,0⟩⟩,
         ⟨1, RowStatus.active, ⟨"d","","","","","","","",0,0⟩⟩]).1).Nodup := by
  decide

/-- C2 (amended): if **all** rows of the input have pairwise-distinct
business keys, `merge_new_schedules` preserves that (and in particular its
active rows have pairwise-distinct keys); if the input's **active** rows
have pairwise-distinct keys, `delete_rows_by_id` and `restore_deleted_rows`
(the operation behind restore_all) preserve distinctness of active keys. -/
theorem lifecycle_distinct_active_keys :
    (∀ (rows : List StoredRow) (R : List Schedule) (n : Nat),
      (allKeys rows).Nodup →
        (allKeys (merge_new_schedules rows R n)).Nodup ∧
        (activeKeys (merge_new_schedules rows R n)).Nodup) ∧
    (∀ (rows : List StoredRow) (ids : List Nat),
      (activeKeys rows).Nodup →
        (activeKeys (delete_rows_by_id rows ids).1).Nodup) ∧
    (∀ rows : List StoredRow,
      (activeKeys rows).Nodup →
        (activeKeys (restore_deleted_rows rows).1).Nodup) := by
  refine ⟨?_, ?_, ?_⟩
  · intro rows R n h
    have h2 := merge_allKeys_nodup rows R n h
    exact ⟨h2, (activeKeys_sublist_allKeys _).nodup h2⟩
  · intro rows ids h
    exact (deleteLoop_activeKeys_sublist ids rows).nodup h
  · exact restore_activeKeys_nodup

/-- Witness for the amended C2 at concrete inputs. -/
theorem lifecycle_distinct_active_keys_witness :
    (activeKeys (merge_new_schedules
        [⟨0, RowStatus.deleted, ⟨"a","","","","","","","",0,0⟩⟩]
        [⟨"b","","","","","","","",0,0⟩] 1)).Nodup ∧
    (activeKeys (delete_rows_by_id
        [⟨0, RowStatus.active, ⟨"a","","","","","","","",0,0⟩⟩] [0]).1).Nodup ∧
    (activeKeys (restore_deleted_rows
        [⟨0, RowStatus.deleted, ⟨"a","","","","","","","",0,0⟩⟩]).1).Nodup :=
  ⟨(lifecycle_distinct_active_keys.1 _ _ _ (by decide)).2,
   lifecycle_distinct_active_keys.2.1 _ _ (by decide),
   lifecycle_distinct_active_keys.2.2 _ (by decide)⟩

/-! ### Per-row merge semantics (C3) -/

theorem mergeSchedule_some {rows rows2 : List StoredRow} {m : Nat} {s : Schedule}
    (h : reactivateByKey (get_business_key s) rows = some rows2) :
    mergeSchedule (rows, m) s = (rows2, m) := by
  unfold mergeSchedule
  rw [h]

theorem mergeSchedule_none {rows : List StoredRow} {m : Nat} {s : Schedule}
    (h : reactivateByKey (get_business_key s) rows = none) :
    mergeSchedule (rows, m) s = (rows ++ [⟨m, RowStatus.active, s⟩], m + 1) := by
  unfold mergeSchedule
  rw [h]

theorem reactivateRow_eq_self_active {r : StoredRow} (h : reactivateRow r = r) :
    r.status = RowStatus.active := by
  cases hs : r.status with
  | active => rfl
  | deleted =>
    exfalso
    have hh := congrArg StoredRow.status h
    simp [reactivateRow, hs] at hh

/-- If key `k` occurs exactly once and reactivation at `k` is a no-op, the
unique row carrying `k` is active. -/
theorem LastKeyActive_count_one_active {k : BusinessKey} {rows : List StoredRow}
    (h : LastKeyActive k rows) (hc : (allKeys rows).count k = 1) :
    ∀ r ∈ rows, get_business_key r.data = k → r.status = RowStatus.active := by
  unfold LastKeyActive at h
  induction rows with
  | nil => intro r hr; cases hr
  | cons r rs ih =>
    have hcount : (allKeys (r :: rs)).count k =
        (allKeys rs).count k + (if get_business_key r.data = k then 1 else 0) := by
      simp only [allKeys, List.map_cons, List.count_cons, beq_iff_eq]
    cases h2 : reactivateByKey k rs with
    | some rs2 =>
      simp only [reactivateByKey, h2, Option.some.injEq, List.cons.injEq] at h
      have hfix : reactivateByKey k rs = some rs := by rw [h2, h.2]
      rcases reactivateByKey_isSome_mem hfix with ⟨r', hr', hkey'⟩
      have hpos : 0 < (allKeys rs).count k := by
        rw [List.count_pos_iff]
        exact List.mem_map.2 ⟨r', hr', hkey'⟩
      by_cases hk : get_business_key r.data = k
      · rw [hcount, if_pos hk] at hc
        omega
      · rw [hcount, if_neg hk] at hc
        intro x hx hkx
        rcases List.mem_cons.1 hx with h1 | h12
        · subst h1; exact absurd hkx hk
        · exact ih hfix (by omega) x h12 hkx
    | none =>
      simp only [reactivateByKey, h2] at h
      split at h
      · rename_i hkeyr
        simp only [Option.some.injEq, List.cons.injEq] at h
        have hact := reactivateRow_eq_self_active h.1
        intro x hx hkx
        rcases List.mem_cons.1 hx with h1 | h12
        · subst h1; exact hact
        · exfalso
          exact (reactivateByKey_eq_none_iff k rs).1 h2 x h12 hkx
      · cases h

/-- Step effect of one merge on the multiset of keys. -/
theorem mergeSchedule_count (acc : List StoredRow × Nat) (t : Schedule) (k : BusinessKey) :
    (allKeys (mergeSchedule acc t).1).count k =
      (allKeys acc.1).count k +
        (if (allKeys acc.1).count k = 0 ∧ get_business_key t = k then 1 else 0) := by
  unfold mergeSchedule
  cases hr : reactivateByKey (get_business_key t) acc.1 with
  | some rows2 =>
    simp only [reactivateByKey_allKeys hr]
    by_cases hk : get_business_key t = k
    · subst hk
      rcases reactivateByKey_isSome_mem hr with ⟨r, hrm, hkey⟩
      have hpos : 0 < (allKeys acc.1).count (get_business_key t) := by
        rw [List.count_pos_iff]
        exact List.mem_map.2 ⟨r, hrm, hkey⟩
      rw [if_neg (by intro hcon; omega)]
      omega
    · rw [if_neg (by intro hcon; exact hk hcon.2)]
      omega
  | none =>
    simp only [allKeys, List.map_append, List.map_cons, List.map_nil]
    rw [List.count_append]
    by_cases hk : get_business_key t = k
    · subst hk
      have hzero : List.count (get_business_key t)
          (List.map (fun r => get_business_key r.data) acc.1) = 0 := by
        rw [List.count_eq_zero]
        intro hcon
        rcases List.mem_map.1 hcon with ⟨r, hrm, hkey⟩
        exact (reactivateByKey_eq_none_iff _ _).1 hr r hrm hkey
      rw [if_pos ⟨hzero, rfl⟩]
      simp [List.count_cons]
    · rw [if_neg (by intro hcon; exact hk hcon.2)]
      have hone : List.count k
          [get_business_key (⟨acc.2, RowStatus.active, t⟩ : StoredRow).data] = 0 := by
        rw [List.count_eq_zero]
        simp only [List.mem_singleton]
        intro hcon
        exact hk hcon.symm
      rw [hone]

/-- A merge adds one occurrence of key `k` exactly when `k` was absent and
some incoming schedule carries it; otherwise the count of `k` is unchanged
(duplicates within a batch are merged). -/
theorem foldl_mergeSchedule_count (R : List Schedule) :
    ∀ (acc : List StoredRow × Nat) (k : BusinessKey),
      (allKeys ((R.foldl mergeSchedule acc).1)).count k =
        (allKeys acc.1).count k +
          (if (allKeys acc.1).count k = 0 ∧ (∃ s ∈ R, get_business_key s = k)
           then 1 else 0) := by
  induction R with
  | nil =>
    intro acc k
    simp
  | cons t R ih =>
    intro acc k
    rw [List.foldl_cons, ih (mergeSchedule acc t) k, mergeSchedule_count acc t k]
    by_cases hk : get_business_key t = k
    · by_cases hz : (allKeys acc.1).count k = 0
      · rw [if_pos ⟨hz, hk⟩, if_neg (by intro hcon; omega),
          if_pos ⟨hz, ⟨t, List.mem_cons_self t R, hk⟩⟩]
      · rw [if_neg (by intro hcon; exact hz hcon.1), if_neg (by intro hcon; exact hz hcon.1),
          if_neg (by intro hcon; exact hz hcon.1)]
    · rw [if_neg (by intro hcon; exact hk hcon.2)]
      have hiff : (∃ s ∈ t :: R, get_business_key s = k) ↔
          (∃ s ∈ R, get_business_key s = k) := by
        constructor
        · rintro ⟨s, hs, hks⟩
          rcases List.mem_cons.1 hs with h1 | h2
          · subst h1; exact absurd hks hk
          · exact ⟨s, h2, hks⟩
        · rintro ⟨s, hs, hks⟩
          exact ⟨s, List.mem_cons_of_mem t hs, hks⟩
      by_cases he : ∃ s ∈ R, get_business_key s = k
      · by_cases hz : (allKeys acc.1).count k = 0
        · rw [if_pos ⟨hz, he⟩, if_pos ⟨hz, hiff.2 he⟩]
        · rw [if_neg (by intro hcon; exact hz hcon.1),
            if_neg (by intro hcon; exact hz hcon.1)]
      · rw [if_neg (by intro hcon; exact he hcon.2),
          if_neg (by intro hcon; exact he (hiff.1 hcon.2))]

/-- One merge step keeps all row ids below the counter and pairwise
distinct. -/
theorem mergeSchedule_ids_step (acc : List StoredRow × Nat) (t : Schedule)
    (h1 : ∀ r ∈ acc.1, r.id < acc.2)
    (h2 : ((acc.1).map (fun r => r.id)).Nodup) :
    (∀ r ∈ (mergeSchedule acc t).1, r.id < (mergeSchedule acc t).2) ∧
      (((mergeSchedule acc t).1).map (fun r => r.id)).Nodup := by
  unfold mergeSchedule
  cases hr : reactivateByKey (get_business_key t) acc.1 with
  | some rows2 =>
    constructor
    · intro r hrm
      have hmem : r.id ∈ (acc.1).map (fun r => r.id) := by
        rw [← reactivateByKey_ids hr]
        exact List.mem_map_of_mem _ hrm
      rcases List.mem_map.1 hmem with ⟨r', hr', hid⟩
      rw [← hid]
      exact h1 r' hr'
    · rw [reactivateByKey_ids hr]
      exact h2
  | none =>
    constructor
    · intro r hrm
      rcases List.mem_append.1 hrm with hmem | hnew
      · exact Nat.lt_succ_of_lt (h1 r hmem)
      · simp only [List.mem_singleton] at hnew
        subst hnew
        exact Nat.lt_succ_self _
    · rw [List.map_append, List.nodup_append]
      refine ⟨h2, by simp, ?_⟩
      intro a ha hb
      simp only [List.map_cons, List.map_nil, List.mem_singleton] at hb
      subst hb
      rcases List.mem_map.1 ha with ⟨r', hr', hid⟩
      have := h1 r' hr'
      omega

theorem foldl_mergeSchedule_ids (R : List Schedule) :
    ∀ acc : List StoredRow × Nat,
      (∀ r ∈ acc.1, r.id < acc.2) → ((acc.1).map (fun r => r.id)).Nodup →
      (∀ r ∈ (R.foldl mergeSchedule acc).1, r.id < (R.foldl mergeSchedule acc).2) ∧
        (((R.foldl mergeSchedule acc).1).map (fun r => r.id)).Nodup := by
  induction R with
  | nil => intro acc hh1 hh2; exact ⟨hh1, hh2⟩
  | cons t R ih =>
    intro acc hh1 hh2
    rw [List.foldl_cons]
    rcases mergeSchedule_ids_step acc t hh1 hh2 with ⟨hs1, hs2⟩
    exact ih (mergeSchedule acc t) hs1 hs2

/-- C3: Per-row merge semantics.
(i) If some existing row carries the incoming key, no new row is created and
the counter does not advance: lengths, ids and keys are unchanged and
afterwards the last row with that key is active (a deleted match is flipped).
(ii) If the last row with the key is already active, the step is a no-op.
(iii) If no row carries the key, a fresh `active` row with the next fresh id
is appended.
(iv) Fresh ids stay pairwise distinct across a batch.
(v) The count of rows with key `k` grows by one exactly when `k` was absent
and some incoming schedule carries `k` — a later row in the same batch with
the same key creates no second row (it is indexed immediately).
(vi) In particular, one deleted row with key `K` plus an incoming `K` row
yield exactly one row with key `K`, and it is active. -/
theorem merge_per_row_semantics :
    (∀ (rows : List StoredRow) (m : Nat) (s : Schedule),
      (∃ r ∈ rows, get_business_key r.data = get_business_key s) →
        (mergeSchedule (rows, m) s).2 = m ∧
        (mergeSchedule (rows, m) s).1.length = rows.length ∧
        allKeys (mergeSchedule (rows, m) s).1 = allKeys rows ∧
        ((mergeSchedule (rows, m) s).1.map (fun r => r.id)) = rows.map (fun r => r.id) ∧
        LastKeyActive (get_business_key s) (mergeSchedule (rows, m) s).1) ∧
    (∀ (rows : List StoredRow) (m : Nat) (s : Schedule),
      LastKeyActive (get_business_key s) rows →
        mergeSchedule (rows, m) s = (rows, m)) ∧
    (∀ (rows : List StoredRow) (m : Nat) (s : Schedule),
      (∀ r ∈ rows, get_business_key r.data ≠ get_business_key s) →
        mergeSchedule (rows, m) s = (rows ++ [⟨m, RowStatus.active, s⟩], m + 1)) ∧
    (∀ (rows : List StoredRow) (R : List Schedule) (n : Nat),
      (∀ r ∈ rows, r.id < n) → ((rows.map (fun r => r.id)).Nodup) →
        ((merge_new_schedules rows R n).map (fun r => r.id)).Nodup) ∧
    (∀ (rows : List StoredRow) (R : List Schedule) (n : Nat) (k : BusinessKey),
      (allKeys (merge_new_schedules rows R n)).count k =
        (allKeys rows).count k +
          (if (allKeys rows).count k = 0 ∧ (∃ s ∈ R, get_business_key s = k)
           then 1 else 0)) ∧
    (∀ (rows : List StoredRow) (R : List Schedule) (n : Nat) (k : BusinessKey),
      (allKeys rows).count k = 1 →
      (∀ r ∈ rows, get_business_key r.data = k → r.status = RowStatus.deleted) →
      (∃ s ∈ R, get_business_key s = k) →
        (allKeys (merge_new_schedules rows R n)).count k = 1 ∧
        ∀ r ∈ merge_new_schedules rows R n,
          get_business_key r.data = k → r.status = RowStatus.active) := by
  refine ⟨?_, ?_, ?_, ?_, ?_, ?_⟩
  · intro rows m s hex
    rcases hex with ⟨r, hr, hkey⟩
    cases hcase : reactivateByKey (get_business_key s) rows with
    | none => exact absurd hkey ((reactivateByKey_eq_none_iff _ _).1 hcase r hr)
    | some rows2 =>
      rw [mergeSchedule_some hcase]
      exact ⟨rfl, reactivateByKey_length hcase, reactivateByKey_allKeys hcase,
        reactivateByKey_ids hcase, reactivateByKey_some_fix hcase⟩
  · intro rows m s h
    exact mergeSchedule_fix h
  · intro rows m s hall
    exact mergeSchedule_none ((reactivateByKey_eq_none_iff _ _).2 hall)
  · intro rows R n h1 h2
    exact (foldl_mergeSchedule_ids R (rows, n) h1 h2).2
  · intro rows R n k
    exact foldl_mergeSchedule_count R (rows, n) k
  · intro rows R n k hc hdel hex
    have hcount := foldl_mergeSchedule_count R (rows, n) k
    rw [hc, if_neg (by intro hcon; omega)] at hcount
    refine ⟨hcount, ?_⟩
    rcases hex with ⟨s, hs, hks⟩
    have hinv := merge_LastKeyActive rows R n s hs
    rw [hks] at hinv
    exact LastKeyActive_count_one_active hinv hcount

/-- Witness for C3 at concrete inputs. -/
theorem merge_per_row_semantics_witness :
    (mergeSchedule ([⟨0, RowStatus.deleted, ⟨"a","","","","","","","",0,0⟩⟩], 7)
        ⟨"a","","","","","","","",0,0⟩).1.length = 1 ∧
    mergeSchedule ([⟨0, RowStatus.active, ⟨"a","","","","","","","",0,0⟩⟩], 7)
        ⟨"a","","","","","","","",0,0⟩ =
      ([⟨0, RowStatus.active, ⟨"a","","","","","","","",0,0⟩⟩], 7) ∧
    mergeSchedule ([], 7) ⟨"a","","","","","","","",0,0⟩ =
      ([⟨7, RowStatus.active, ⟨"a","","","","","","","",0,0⟩⟩], 8) ∧
    ((merge_new_schedules [⟨0, RowStatus.active, ⟨"a","","","","","","","",0,0⟩⟩]
        [⟨"b","","","","","","","",0,0⟩] 1).map (fun r => r.id)).Nodup ∧
    (allKeys (merge_new_schedules [⟨0, RowStatus.deleted, ⟨"a","","","","","","","",0,0⟩⟩]
        [⟨"a","","","","","","","",0,0⟩] 3)).count
      (get_business_key ⟨"a","","","","","","","",0,0⟩) = 1 :=
  ⟨(merge_per_row_semantics.1 _ 7 _ (by decide)).2.1,
   merge_per_row_semantics.2.1 _ 7 _ (by unfold LastKeyActive; decide),
   merge_per_row_semantics.2.2.1 _ 7 _ (by decide),
   merge_per_row_semantics.2.2.2.1 _ _ 1 (by decide) (by decide),
   (merge_per_row_semantics.2.2.2.2.2 _ _ 3 _ (by decide) (by decide)
     ⟨⟨"a","","","","","","","",0,0⟩, by decide, by decide⟩).1⟩

/-! ### Deletion semantics (C5) -/

/-- C5: `delete_rows_by_id` flips to `deleted` exactly the active rows whose
id is in the set (pointwise map over the input, so order and length are
preserved and an already-deleted row is returned untouched), and the counter
counts exactly those rows. -/
theorem delete_rows_by_id_spec (rows : List StoredRow) (ids : List Nat) :
    (delete_rows_by_id rows ids).1 =
      rows.map (fun r => if r.id ∈ ids ∧ r.status = RowStatus.active
        then { r with status := RowStatus.deleted } else r) ∧
    (delete_rows_by_id rows ids).2 =
      rows.countP (fun r => decide (r.id ∈ ids ∧ r.status = RowStatus.active)) ∧
    (delete_rows_by_id rows ids).1.length = rows.length := by
  unfold delete_rows_by_id
  have hmain : ∀ rs : List StoredRow, (deleteLoop ids rs).1 =
      rs.map (fun r => if r.id ∈ ids ∧ r.status = RowStatus.active
        then { r with status := RowStatus.deleted } else r) ∧
      (deleteLoop ids rs).2 =
        rs.countP (fun r => decide (r.id ∈ ids ∧ r.status = RowStatus.active)) := by
    intro rs
    induction rs with
    | nil => exact ⟨rfl, rfl⟩
    | cons r rs ih =>
      by_cases hc : r.id ∈ ids ∧ r.status = RowStatus.active
      · constructor
        · simp only [deleteLoop, if_pos hc, List.map_cons, ih.1]
        · simp only [deleteLoop, if_pos hc, List.countP_cons, decide_eq_true hc, ih.2]
          simp
      · constructor
        · simp only [deleteLoop, if_neg hc, List.map_cons, ih.1]
        · simp only [deleteLoop, if_neg hc, List.countP_cons, ih.2]
          simp [hc]
  refine ⟨(hmain rows).1, (hmain rows).2, ?_⟩
  rw [(hmain rows).1, List.length_map]

/-! ### Restore semantics (C4) -/

theorem restoreLoop_length (rows : List StoredRow) :
    ∀ keys : List BusinessKey, (restoreLoop keys rows).1.length = rows.length := by
  induction rows with
  | nil => intro keys; rfl
  | cons rr rs ih =>
    intro keys
    rcases status_eq_active_or_deleted rr with ha | hd
    · have hne : ¬ (rr.status = RowStatus.deleted) := by rw [ha]; intro hc; cases hc
      simp only [restoreLoop, if_neg hne, List.length_cons, ih keys]
    · by_cases hmem : get_business_key rr.data ∈ keys
      · simp only [restoreLoop, if_pos hd, if_pos hmem, List.length_cons, ih keys]
      · simp only [restoreLoop, if_pos hd, if_neg hmem, List.length_cons, ih]

/-- Index-wise characterization of the restore loop: ids and data are kept,
and a row ends active exactly when it was active, or it was deleted, its key
is not in the initial running set, and no earlier deleted row carries the
same key (the earlier one was restored first and claimed the key). -/
theorem restoreLoop_getElem (rows : List StoredRow) :
    ∀ (keys : List BusinessKey) (i : Nat) (r : StoredRow), rows[i]? = some r →
      ∃ r2, (restoreLoop keys rows).1[i]? = some r2 ∧ r2.id = r.id ∧ r2.data = r.data ∧
        (r2.status = RowStatus.active ↔ r.status = RowStatus.active ∨
          (r.status = RowStatus.deleted ∧ get_business_key r.data ∉ keys ∧
            ∀ (j : Nat) (rj : StoredRow), j < i → rows[j]? = some rj →
              rj.status = RowStatus.deleted →
              get_business_key rj.data ≠ get_business_key r.data)) := by
  induction rows with
  | nil =>
    intro keys i r h
    rw [List.getElem?_nil] at h
    cases h
  | cons rr rs ih =>
    intro keys i r h
    rcases status_eq_active_or_deleted rr with ha | hd
    · -- active head: untouched, same running set
      have hne : ¬ (rr.status = RowStatus.deleted) := by rw [ha]; intro hc; cases hc
      have hout : (restoreLoop keys (rr :: rs)).1 = rr :: (restoreLoop keys rs).1 := by
        simp only [restoreLoop, if_neg hne]
      rw [hout]
      cases i with
      | zero =>
        rw [List.getElem?_cons_zero, Option.some.injEq] at h
        subst h
        exact ⟨rr, by rw [List.getElem?_cons_zero], rfl, rfl,
          iff_of_true ha (Or.inl ha)⟩
      | succ i2 =>
        rw [List.getElem?_cons_succ] at h
        rcases ih keys i2 r h with ⟨r2, hsome, hid, hdata, hiff⟩
        refine ⟨r2, by rw [List.getElem?_cons_succ]; exact hsome, hid, hdata, ?_⟩
        rw [hiff]
        constructor
        · rintro (h1 | ⟨h1, h2, h3⟩)
          · exact Or.inl h1
          · refine Or.inr ⟨h1, h2, ?_⟩
            intro j rj hj hjget hjdel
            cases j with
            | zero =>
              rw [List.getElem?_cons_zero, Option.some.injEq] at hjget
              subst hjget
              rw [ha] at hjdel
              cases hjdel
            | succ j2 =>
              rw [List.getElem?_cons_succ] at hjget
              exact h3 j2 rj (Nat.lt_of_succ_lt_succ hj) hjget hjdel
        · rintro (h1 | ⟨h1, h2, h3⟩)
          · exact Or.inl h1
          · refine Or.inr ⟨h1, h2, ?_⟩
            intro j rj hj hjget hjdel
            exact h3 (j + 1) rj (Nat.succ_lt_succ hj)
              (by rw [List.getElem?_cons_succ]; exact hjget) hjdel
    · by_cases hmem : get_business_key rr.data ∈ keys
      · -- deleted head, key already claimed: stays deleted, same running set
        have hout : (restoreLoop keys (rr :: rs)).1 = rr :: (restoreLoop keys rs).1 := by
          simp only [restoreLoop, if_pos hd, if_pos hmem]
        rw [hout]
        cases i with
        | zero =>
          rw [List.getElem?_cons_zero, Option.some.injEq] at h
          subst h
          refine ⟨rr, by rw [List.getElem?_cons_zero], rfl, rfl, iff_of_false ?_ ?_⟩
          · rw [hd]; intro hc; cases hc
          · rintro (h1 | ⟨h1, h2, h3⟩)
            · rw [hd] at h1; cases h1
            · exact h2 hmem
        | succ i2 =>
          rw [List.getElem?_cons_succ] at h
          rcases ih keys i2 r h with ⟨r2, hsome, hid, hdata, hiff⟩
          refine ⟨r2, by rw [List.getElem?_cons_succ]; exact hsome, hid, hdata, ?_⟩
          rw [hiff]
          constructor
          · rintro (h1 | ⟨h1, h2, h3⟩)
            · exact Or.inl h1
            · refine Or.inr ⟨h1, h2, ?_⟩
              intro j rj hj hjget hjdel
              cases j with
              | zero =>
                rw [List.getElem?_cons_zero, Option.some.injEq] at hjget
                subst hjget
                intro hc
                rw [hc] at hmem
                exact h2 hmem
              | succ j2 =>
                rw [List.getElem?_cons_succ] at hjget
                exact h3 j2 rj (Nat.lt_of_succ_lt_succ hj) hjget hjdel
          · rintro (h1 | ⟨h1, h2, h3⟩)
            · exact Or.inl h1
            · refine Or.inr ⟨h1, h2, ?_⟩
              intro j rj hj hjget hjdel
              exact h3 (j + 1) rj (Nat.succ_lt_succ hj)
                (by rw [List.getElem?_cons_succ]; exact hjget) hjdel
      · -- deleted head, fresh key: restored, key joins the running set
        have hout : (restoreLoop keys (rr :: rs)).1 =
            { rr with status := RowStatus.active } ::
              (restoreLoop (get_business_key rr.data :: keys) rs).1 := by
          simp only [restoreLoop, if_pos hd, if_neg hmem]
        rw [hout]
        cases i with
        | zero =>
          rw [List.getElem?_cons_zero, Option.some.injEq] at h
          subst h
          refine ⟨{ rr with status := RowStatus.active },
            by rw [List.getElem?_cons_zero], rfl, rfl, iff_of_true rfl ?_⟩
          refine Or.inr ⟨hd, hmem, ?_⟩
          intro j rj hj _ _
          exact absurd hj (Nat.not_lt_zero j)
        | succ i2 =>
          rw [List.getElem?_cons_succ] at h
          rcases ih (get_business_key rr.data :: keys) i2 r h with
            ⟨r2, hsome, hid, hdata, hiff⟩
          refine ⟨r2, by rw [List.getElem?_cons_succ]; exact hsome, hid, hdata, ?_⟩
          rw [hiff]
          constructor
          · rintro (h1 | ⟨h1, h2, h3⟩)
            · exact Or.inl h1
            · refine Or.inr ⟨h1, fun hc => h2 (List.mem_cons_of_mem _ hc), ?_⟩
              intro j rj hj hjget hjdel
              cases j with
              | zero =>
                rw [List.getElem?_cons_zero, Option.some.injEq] at hjget
                subst hjget
                intro hc
                exact h2 (by rw [hc]; exact List.mem_cons_self _ _)
              | succ j2 =>
                rw [List.getElem?_cons_succ] at hjget
                exact h3 j2 rj (Nat.lt_of_succ_lt_succ hj) hjget hjdel
          · rintro (h1 | ⟨h1, h2, h3⟩)
            · exact Or.inl h1
            · refine Or.inr ⟨h1, ?_, ?_⟩
              · intro hc
                rcases List.mem_cons.1 hc with hc1 | hc2
                · exact h3 0 rr (Nat.succ_pos i2) (by rw [List.getElem?_cons_zero]) hd hc1.symm
                · exact h2 hc2
              · intro j rj hj hjget hjdel
                exact h3 (j + 1) rj (Nat.succ_lt_succ hj)
                  (by rw [List.getElem?_cons_succ]; exact hjget) hjdel

/-- The restore counter counts exactly the rows whose status changed from
`deleted` to `active`. -/
theorem restoreLoop_count (rows : List StoredRow) :
    ∀ keys : List BusinessKey, (restoreLoop keys rows).2 =
      (rows.zip (restoreLoop keys rows).1).countP
        (fun p => decide (p.1.status = RowStatus.deleted ∧
          p.2.status = RowStatus.active)) := by
  induction rows with
  | nil => intro keys; rfl
  | cons rr rs ih =>
    intro keys
    rcases status_eq_active_or_deleted rr with ha | hd
    · have hne : ¬ (rr.status = RowStatus.deleted) := by rw [ha]; intro hc; cases hc
      simp only [restoreLoop, if_neg hne, List.zip_cons_cons, List.countP_cons]
      rw [ih keys]
      simp [hne]
    · by_cases hmem : get_business_key rr.data ∈ keys
      · have hna : ¬ (rr.status = RowStatus.active) := by rw [hd]; intro hc; cases hc
        simp only [restoreLoop, if_pos hd, if_pos hmem, List.zip_cons_cons, List.countP_cons]
        rw [ih keys]
        simp [hna]
      · simp only [restoreLoop, if_pos hd, if_neg hmem, List.zip_cons_cons, List.countP_cons]
        rw [ih (get_business_key rr.data :: keys)]
        simp [hd]

/-- C4: `restore_deleted_rows` keeps length, ids and data; a row ends active
exactly when it was active already, or it was deleted, no active row holds
its key, and no earlier deleted row has the same key (so of two deleted
duplicates only the first is restored, the rest stay deleted); and
`restored_count` is exactly the number of rows flipped from deleted to
active. -/
theorem restore_deleted_rows_spec (rows : List StoredRow) :
    (restore_deleted_rows rows).1.length = rows.length ∧
    (∀ (i : Nat) (r : StoredRow), rows[i]? = some r →
      ∃ r2, (restore_deleted_rows rows).1[i]? = some r2 ∧
        r2.id = r.id ∧ r2.data = r.data ∧
        (r2.status = RowStatus.active ↔ r.status = RowStatus.active ∨
          (r.status = RowStatus.deleted ∧
            get_business_key r.data ∉ activeKeys rows ∧
            ∀ (j : Nat) (rj : StoredRow), j < i → rows[j]? = some rj →
              rj.status = RowStatus.deleted →
              get_business_key rj.data ≠ get_business_key r.data))) ∧
    (restore_deleted_rows rows).2 =
      (rows.zip (restore_deleted_rows rows).1).countP
        (fun p => decide (p.1.status = RowStatus.deleted ∧
          p.2.status = RowStatus.active)) :=
  ⟨restoreLoop_length rows _, restoreLoop_getElem rows _, restoreLoop_count rows _⟩

/-- Witness for C4: two deleted duplicates — the second stays deleted. -/
theorem restore_deleted_rows_spec_witness :
    (restore_deleted_rows
        [⟨0, RowStatus.deleted, ⟨"a","","","","","","","",0,0⟩⟩,
         ⟨1, RowStatus.deleted, ⟨"a","","","","","","","",0,0⟩⟩]).1[1]? =
      some ⟨1, RowStatus.deleted, ⟨"a","","","","","","","",0,0⟩⟩ := by
  rcases (restore_deleted_rows_spec
      [⟨0, RowStatus.deleted, ⟨"a","","","","","","","",0,0⟩⟩,
       ⟨1, RowStatus.deleted, ⟨"a","","","","","","","",0,0⟩⟩]).2.1 1
      ⟨1, RowStatus.deleted, ⟨"a","","","","","","","",0,0⟩⟩ rfl with
    ⟨r2, hsome, hid, hdata, hiff⟩
  have hne : ¬ r2.status = RowStatus.active := by
    rw [hiff]
    rintro (h1 | ⟨h1, h2, h3⟩)
    · cases h1
    · exact h3 0 ⟨0, RowStatus.deleted, ⟨"a","","","","","","","",0,0⟩⟩
        Nat.one_pos rfl rfl rfl
  have hstat : r2.status = RowStatus.deleted := by
    rcases status_eq_active_or_deleted r2 with h | h
    · exact absurd h hne
    · exact h
  rw [hsome]
  have : r2 = ⟨1, RowStatus.deleted, ⟨"a","","","","","","","",0,0⟩⟩ := by
    cases r2
    simp_all
  rw [this]

/-! ### Character toolkit -/

theorem pyLower_of_find?_none {c : Char}
    (h : pyLowerTable.find? (fun p => p.1 == c) = none) : pyLower c = c := by
  simp only [pyLower, h]

theorem nfkdChar_of_find?_none {c : Char}
    (h : nfkdTable.find? (fun p => p.1 == c) = none) : nfkdChar c = [c] := by
  simp only [nfkdChar, h]

theorem deAccent_of_find?_none {c : Char}
    (h : nfkdTable.find? (fun p => p.1 == c) = none) : deAccent c = c := by
  simp only [deAccent, h]

theorem pyLowerTable_key {c : Char} {p : Char × Char}
    (h : pyLowerTable.find? (fun p => p.1 == c) = some p) : p.1 = c := by
  simpa [beq_iff_eq] using List.find?_some h

theorem nfkdTable_key {c : Char} {p : Char × List Char}
    (h : nfkdTable.find? (fun p => p.1 == c) = some p) : p.1 = c := by
  simpa [beq_iff_eq] using List.find?_some h

/-- Lowering is idempotent (character-wise). -/
theorem pyLower_idem (c : Char) : pyLower (pyLower c) = pyLower c := by
  cases h : pyLowerTable.find? (fun p => p.1 == c) with
  | some p =>
    rw [show pyLower c = p.2 from by simp only [pyLower, h]]
    have hm := List.mem_of_find?_eq_some h
    fin_cases hm <;> decide
  | none => simp [pyLower_of_find?_none h]

/-- Lowering preserves word-char-ness. -/
theorem isWordChar_pyLower (c : Char) : isWordChar (pyLower c) = isWordChar c := by
  cases h : pyLowerTable.find? (fun p => p.1 == c) with
  | some p =>
    have hk := pyLowerTable_key h
    subst hk
    rw [show pyLower p.1 = p.2 from by simp only [pyLower, h]]
    have hm := List.mem_of_find?_eq_some h
    fin_cases hm <;> decide
  | none => rw [pyLower_of_find?_none h]

/-- After lowering and NFKD, the surviving (non-combining) characters are
fixed points of lowering and of NFKD. -/
theorem nfkd_pyLower_stable (c : Char) :
    ∀ d ∈ nfkdChar (pyLower c), combiningChar d = false →
      pyLower d = d ∧ nfkdChar d = [d] := by
  cases h : pyLowerTable.find? (fun p => p.1 == c) with
  | some p =>
    rw [show pyLower c = p.2 from by simp only [pyLower, h]]
    have hm := List.mem_of_find?_eq_some h
    fin_cases hm <;> decide
  | none =>
    rw [pyLower_of_find?_none h]
    cases h2 : nfkdTable.find? (fun p => p.1 == c) with
    | some p2 =>
      have hk := nfkdTable_key h2
      subst hk
      rw [show nfkdChar p2.1 = p2.2 from by simp only [nfkdChar, h2]]
      have hm2 := List.mem_of_find?_eq_some h2
      fin_cases hm2 <;> first
        | exact absurd h (by decide)
        | decide
    | none =>
      rw [nfkdChar_of_find?_none h2]
      intro d hd hnc
      rw [List.mem_singleton] at hd
      subst hd
      exact ⟨pyLower_of_find?_none h, nfkdChar_of_find?_none h2⟩

/-- Accent stripping commutes with lowering. -/
theorem pyLower_deAccent (c : Char) :
    pyLower (deAccent c) = deAccent (pyLower c) := by
  cases h : pyLowerTable.find? (fun p => p.1 == c) with
  | some p =>
    have hk := pyLowerTable_key h
    subst hk
    rw [show pyLower p.1 = p.2 from by simp only [pyLower, h]]
    have hm := List.mem_of_find?_eq_some h
    fin_cases hm <;> decide
  | none =>
    rw [pyLower_of_find?_none h]
    cases h2 : nfkdTable.find? (fun p => p.1 == c) with
    | some p2 =>
      have hk := nfkdTable_key h2
      subst hk
      rw [show deAccent p2.1 = p2.2.headD p2.1 from by simp only [deAccent, h2]]
      have hm2 := List.mem_of_find?_eq_some h2
      fin_cases hm2 <;> first
        | exact absurd h (by decide)
        | decide
    | none =>
      rw [deAccent_of_find?_none h2, pyLower_of_find?_none h]

/-- Accent stripping preserves word-char-ness. -/
theorem isWordChar_deAccent (c : Char) :
    isWordChar (deAccent c) = isWordChar c := by
  cases h : nfkdTable.find? (fun p => p.1 == c) with
  | some p =>
    have hk := nfkdTable_key h
    subst hk
    rw [show deAccent p.1 = p.2.headD p.1 from by simp only [deAccent, h]]
    have hm := List.mem_of_find?_eq_some h
    fin_cases hm <;> decide
  | none => rw [deAccent_of_find?_none h]

/-- NFKD plus dropping combining marks does not see accents. -/
theorem stripCombining_nfkd_deAccent (c : Char) :
    stripCombining (nfkdChar (deAccent c)) = stripCombining (nfkdChar c) := by
  cases h : nfkdTable.find? (fun p => p.1 == c) with
  | some p =>
    have hk := nfkdTable_key h
    subst hk
    rw [show deAccent p.1 = p.2.headD p.1 from by simp only [deAccent, h],
      show nfkdChar p.1 = p.2 from by simp only [nfkdChar, h]]
    have hm := List.mem_of_find?_eq_some h
    fin_cases hm <;> decide
  | none => rw [deAccent_of_find?_none h]

theorem beq_false_of_plain {c : Char} (h : plainChar c = true) {x : Char}
    (hx : plainChar x = false) : (c == x) = false := by
  rw [beq_eq_false_iff_ne]
  rintro rfl
  rw [h] at hx
  cases hx

/-- Facts about plain lowercase ASCII letters. -/
theorem plainChar_facts {c : Char} (h : plainChar c = true) :
    pyLower c = c ∧ nfkdChar c = [c] ∧ combiningChar c = false ∧
    isWordChar c = true ∧ isDigitChar c = false ∧
    isApostropheVariant c = false ∧ isDashChar c = false ∧
    isSpaceChar c = false ∧ deAccent c = c := by
  have hrange : 97 ≤ c.toNat ∧ c.toNat ≤ 122 := by
    unfold plainChar at h
    simp only [Bool.and_eq_true, decide_eq_true_eq] at h
    exact h
  have hlow : pyLowerTable.find? (fun p => p.1 == c) = none := by
    rw [List.find?_eq_none]
    intro p hp
    fin_cases hp <;>
      (simp only [beq_iff_eq]; rintro rfl; exact absurd h (by decide))
  have hnf : nfkdTable.find? (fun p => p.1 == c) = none := by
    rw [List.find?_eq_none]
    intro p hp
    fin_cases hp <;>
      (simp only [beq_iff_eq]; rintro rfl; exact absurd h (by decide))
  refine ⟨pyLower_of_find?_none hlow, nfkdChar_of_find?_none hnf, ?_, ?_, ?_, ?_, ?_, ?_,
    deAccent_of_find?_none hnf⟩
  · unfold combiningChar
    rw [beq_false_of_plain h (by decide), beq_false_of_plain h (by decide),
      beq_false_of_plain h (by decide)]
    rfl
  · unfold isWordChar
    have h1 : decide (97 ≤ c.toNat) = true := decide_eq_true hrange.1
    have h2 : decide (c.toNat ≤ 122) = true := decide_eq_true hrange.2
    rw [h1, h2]
    rfl
  · unfold isDigitChar
    have h2 : decide (c.toNat ≤ 57) = false := by
      rw [decide_eq_false_iff_not]
      omega
    rw [h2]
    simp
  · unfold isApostropheVariant
    rw [beq_false_of_plain h (by decide), beq_false_of_plain h (by decide),
      beq_false_of_plain h (by decide)]
    rfl
  · unfold isDashChar
    rw [beq_false_of_plain h (by decide), beq_false_of_plain h (by decide),
      beq_false_of_plain h (by decide), beq_false_of_plain h (by decide)]
    rfl
  · unfold isSpaceChar
    rw [beq_false_of_plain h (by decide), beq_false_of_plain h (by decide),
      beq_false_of_plain h (by decide), beq_false_of_plain h (by decide)]
    rfl

/-! ### Tokenization lemmas -/

theorem map_eq_self_of {l : List Char} {f : Char → Char}
    (h : ∀ c ∈ l, f c = c) : l.map f = l := by
  induction l with
  | nil => rfl
  | cons c cs ih =>
    rw [List.map_cons, h c (List.mem_cons_self c cs),
      ih (fun c hc => h c (List.mem_cons_of_mem _ hc))]

theorem flatMap_eq_self_of {l : List Char} {f : Char → List Char}
    (h : ∀ c ∈ l, f c = [c]) : l.flatMap f = l := by
  induction l with
  | nil => rfl
  | cons c cs ih =>
    rw [List.flatMap_cons, h c (List.mem_cons_self c cs),
      ih (fun c hc => h c (List.mem_cons_of_mem _ hc))]
    rfl

/-- A list of word characters is one single token. -/
theorem findWordsAux_all_word {l : List Char} (h : ∀ c ∈ l, isWordChar c = true) :
    ∀ acc : List Char, findWordsAux l acc =
      if (acc ++ l).isEmpty then [] else [acc ++ l] := by
  induction l with
  | nil => intro acc; simp [findWordsAux]
  | cons c cs ih =>
    intro acc
    have hc := h c (List.mem_cons_self c cs)
    have hcs : ∀ c ∈ cs, isWordChar c = true :=
      fun c hx => h c (List.mem_cons_of_mem _ hx)
    simp only [findWordsAux, hc, if_true]
    rw [ih hcs (acc ++ [c])]
    simp

/-- The characters of every token come from the accumulator or the input. -/
theorem findWordsAux_chars {l : List Char} :
    ∀ (acc t : List Char), t ∈ findWordsAux l acc → ∀ c ∈ t, c ∈ acc ∨ c ∈ l := by
  induction l with
  | nil =>
    intro acc t ht c hc
    unfold findWordsAux at ht
    split at ht
    · cases ht
    · rw [List.mem_singleton] at ht
      subst ht
      exact Or.inl hc
  | cons x xs ih =>
    intro acc t ht c hc
    unfold findWordsAux at ht
    split at ht
    · rcases ih (acc ++ [x]) t ht c hc with hmem | hmem
      · rcases List.mem_append.1 hmem with h1 | h1
        · exact Or.inl h1
        · rw [List.mem_singleton] at h1
          subst h1
          exact Or.inr (List.mem_cons_self c xs)
      · exact Or.inr (List.mem_cons_of_mem _ hmem)
    · split at ht
      · rcases ih [] t ht c hc with hmem | hmem
        · cases hmem
        · exact Or.inr (List.mem_cons_of_mem _ hmem)
      · rcases List.mem_cons.1 ht with h1 | h1
        · subst h1
          exact Or.inl hc
        · rcases ih [] t h1 c hc with hmem | hmem
          · cases hmem
          · exact Or.inr (List.mem_cons_of_mem _ hmem)

/-- Every token is nonempty and consists of word characters. -/
theorem findWordsAux_tokens {l : List Char} :
    ∀ acc : List Char, (∀ c ∈ acc, isWordChar c = true) →
      ∀ t ∈ findWordsAux l acc, t ≠ [] ∧ ∀ c ∈ t, isWordChar c = true := by
  induction l with
  | nil =>
    intro acc hacc t ht
    unfold findWordsAux at ht
    split at ht
    · cases ht
    · rename_i hne
      rw [List.mem_singleton] at ht
      subst ht
      refine ⟨?_, hacc⟩
      intro hc
      rw [hc] at hne
      exact hne rfl
  | cons x xs ih =>
    intro acc hacc t ht
    unfold findWordsAux at ht
    split at ht
    · rename_i hx
      refine ih (acc ++ [x]) ?_ t ht
      intro c hc
      rcases List.mem_append.1 hc with h1 | h1
      · exact hacc c h1
      · rw [List.mem_singleton] at h1
        subst h1
        exact hx
    · split at ht
      · exact ih [] (by intro c hc; cases hc) t ht
      · rcases List.mem_cons.1 ht with h1 | h1
        · subst h1
          rename_i hne
          refine ⟨?_, hacc⟩
          intro hc
          rw [hc] at hne
          exact hne rfl
        · exact ih [] (by intro c hc; cases hc) t h1

/-- Prepending a run of word characters extends the accumulator. -/
theorem findWordsAux_word_run {w : List Char} (hw : ∀ c ∈ w, isWordChar c = true) :
    ∀ (rest acc : List Char),
      findWordsAux (w ++ rest) acc = findWordsAux rest (acc ++ w) := by
  induction w with
  | nil => intro rest acc; simp
  | cons c cs ih =>
    intro rest acc
    have hc := hw c (List.mem_cons_self c cs)
    rw [List.cons_append]
    simp only [findWordsAux, hc, if_true]
    rw [ih (fun x hx => hw x (List.mem_cons_of_mem _ hx)) rest (acc ++ [c])]
    simp

/-- A blank flushes the accumulator. -/
theorem findWordsAux_space (l acc : List Char) :
    findWordsAux (' ' :: l) acc =
      if acc.isEmpty then findWordsAux l [] else acc :: findWordsAux l [] := by
  simp only [findWordsAux]
  rw [if_neg (by decide)]

/-- Tokenizing a blank-joined list of nonempty word-character tokens
recovers exactly the tokens. -/
theorem findWords_joinWords {ts : List (List Char)}
    (h : ∀ t ∈ ts, t ≠ [] ∧ ∀ c ∈ t, isWordChar c = true) :
    findWords (joinWords ts) = ts := by
  induction ts with
  | nil => rfl
  | cons t ts ih =>
    rcases h t (List.mem_cons_self t ts) with ⟨hne, hw⟩
    cases ts with
    | nil =>
      show findWordsAux t [] = [t]
      rw [findWordsAux_all_word hw []]
      simp only [List.nil_append]
      rw [if_neg (by simpa using hne)]
    | cons t2 ts2 =>
      show findWordsAux (t ++ ' ' :: joinWords (t2 :: ts2)) [] = t :: t2 :: ts2
      rw [findWordsAux_word_run hw _ [], List.nil_append, findWordsAux_space _ t,
        if_neg (by simpa using hne)]
      have ih2 := ih (fun x hx => h x (List.mem_cons_of_mem _ hx))
      exact congrArg (fun l => t :: l) ih2

/-- The characters of a blank-joined token list. -/
theorem joinWords_chars {ts : List (List Char)} :
    ∀ c ∈ joinWords ts, (∃ t ∈ ts, c ∈ t) ∨ c = ' ' := by
  induction ts with
  | nil => intro c hc; cases hc
  | cons t ts ih =>
    cases ts with
    | nil =>
      intro c hc
      exact Or.inl ⟨t, List.mem_cons_self t [], hc⟩
    | cons t2 ts2 =>
      intro c hc
      rcases List.mem_append.1 hc with h1 | h1
      · exact Or.inl ⟨t, List.mem_cons_self _ _, h1⟩
      · rcases List.mem_cons.1 h1 with h2 | h2
        · exact Or.inr h2
        · rcases ih c h2 with ⟨t3, ht3, hc3⟩ | h3
          · exact Or.inl ⟨t3, List.mem_cons_of_mem _ ht3, hc3⟩
          · exact Or.inr h3

/-! ### Strict normalization: idempotence (C8) -/

/-- Every character of `remove_irrelevant` output is a lowered character. -/
theorem remove_irrelevant_chars_mem {l : List Char} :
    ∀ c ∈ remove_irrelevant_chars l, ∃ c0, c = pyLower c0 := by
  intro c hc
  unfold remove_irrelevant_chars at hc
  rcases joinWords_chars c hc with ⟨t, ht, hct⟩ | hsp
  · have ht2 := List.mem_filter.1 ht
    have := findWordsAux_chars [] t ht2.1 c hct
    rcases this with h1 | h1
    · cases h1
    · rcases List.mem_map.1 h1 with ⟨c0, _, hc0⟩
      exact ⟨c0, hc0.symm⟩
  · exact ⟨' ', by rw [hsp]; decide⟩

/-- Every character of `canonical` output is a stable word character. -/
theorem canonical_chars_mem {l : List Char} :
    ∀ d ∈ canonical_chars l, pyLower d = d ∧ nfkdChar d = [d] ∧
      combiningChar d = false ∧ isWordChar d = true := by
  intro d hd
  unfold canonical_chars at hd
  rcases List.mem_map.1 hd with ⟨d0, hd0, hlow⟩
  have hd1 := List.mem_filter.1 hd0
  have hword : isWordChar d0 = true := hd1.2
  have hd2 := List.mem_filter.1 hd1.1
  have hnc : combiningChar d0 = false := by
    have := hd2.2
    simp only [Bool.not_eq_true'] at this
    exact this
  rcases List.mem_flatMap.1 hd2.1 with ⟨c, hcmem, hdnf⟩
  rcases remove_irrelevant_chars_mem c hcmem with ⟨c0, hc0⟩
  rw [hc0] at hdnf
  rcases nfkd_pyLower_stable c0 d0 hdnf hnc with ⟨hfix, hnfkd⟩
  have hdd : d = d0 := by rw [← hlow, hfix]
  subst hdd
  exact ⟨hfix, hnfkd, hnc, hword⟩

/-- `canonical` is the identity on a stable word-character list that the
stopword regex does not match. -/
theorem canonical_chars_fix {out : List Char}
    (hstab : ∀ d ∈ out, pyLower d = d ∧ nfkdChar d = [d] ∧
      combiningChar d = false ∧ isWordChar d = true)
    (hirr : tokenIrrelevant out = false) :
    canonical_chars out = out := by
  cases out with
  | nil => rfl
  | cons c0 cs0 =>
    have hlowid : (c0 :: cs0).map pyLower = c0 :: cs0 :=
      map_eq_self_of (fun c hc => (hstab c hc).1)
    have hword : ∀ c ∈ c0 :: cs0, isWordChar c = true := fun c hc => (hstab c hc).2.2.2
    have hs1 : remove_irrelevant_chars (c0 :: cs0) = c0 :: cs0 := by
      unfold remove_irrelevant_chars
      rw [hlowid]
      show joinWords (List.filter _ (findWordsAux (c0 :: cs0) [])) = c0 :: cs0
      rw [findWordsAux_all_word hword [], List.nil_append,
        if_neg (by simp)]
      rw [List.filter_cons, if_pos (by rw [hirr]; rfl), List.filter_nil]
      rfl
    unfold canonical_chars
    rw [hs1]
    show List.map pyLower (List.filter isWordChar
      (List.filter (fun c => !combiningChar c) ((c0 :: cs0).flatMap nfkdChar))) = c0 :: cs0
    have h2 : List.filter (fun c => !combiningChar c) (c0 :: cs0) = c0 :: cs0 :=
      List.filter_eq_self.2 (fun c hc => by
        rw [Bool.not_eq_true']
        exact (hstab c hc).2.2.1)
    have h3 : List.filter isWordChar (c0 :: cs0) = c0 :: cs0 :=
      List.filter_eq_self.2 (fun c hc => hword c hc)
    rw [flatMap_eq_self_of (fun c hc => (hstab c hc).2.1), h2, h3, hlowid]

/-- C8 is false as stated: `canonical` is not idempotent.  Removing the
blank in `"on line"` glues the two harmless tokens into the stopword
`"online"`, which the second pass then deletes. -/
theorem canonical_not_idempotent_cex :
    canonical (canonical "on line") ≠ canonical "on line" ∧
    canonical "on line" = "online" ∧ canonical (canonical "on line") = "" := by
  refine ⟨?_, by decide, by decide⟩
  decide

/-- C8 (amended): `canonical` is idempotent on every string whose canonical
form does not itself match the stopword regex (the canonical form is a
single token of stable lowered word characters, so the second pass can only
differ by deleting it when the stopword regex matches it). -/
theorem canonical_idempotent (s : String)
    (h : tokenIrrelevant (canonical s).data = false) :
    canonical (canonical s) = canonical s := by
  show (⟨canonical_chars (canonical s).data⟩ : String) = canonical s
  have h2 : canonical_chars (canonical s).data = (canonical s).data :=
    canonical_chars_fix (fun d hd => canonical_chars_mem d hd) h
  rw [h2]

/-- Witness for the amended C8. -/
theorem canonical_idempotent_witness :
    tokenIrrelevant (canonical "Hola Mundo").data = false ∧
    canonical (canonical "Hola Mundo") = canonical "Hola Mundo" :=
  ⟨by decide, canonical_idempotent "Hola Mundo" (by decide)⟩

/-! ### Strict normalization: invariance (C9) -/

/-- Tokenization commutes with a word-char-preserving character map. -/
theorem findWordsAux_map (f : Char → Char)
    (hf : ∀ c, isWordChar (f c) = isWordChar c) (l : List Char) :
    ∀ acc : List Char,
      findWordsAux (l.map f) (acc.map f) = (findWordsAux l acc).map (List.map f) := by
  induction l with
  | nil =>
    intro acc
    simp only [List.map_nil]
    unfold findWordsAux
    by_cases hacc : acc.isEmpty
    · rw [if_pos (by simpa using hacc), if_pos hacc]
      rfl
    · rw [if_neg (by simpa using hacc), if_neg hacc]
      rfl
  | cons c cs ih =>
    intro acc
    rw [List.map_cons]
    unfold findWordsAux
    rw [hf c]
    by_cases hc : isWordChar c = true
    · rw [if_pos hc, if_pos hc]
      have hmm : acc.map f ++ [f c] = (acc ++ [c]).map f := by simp
      rw [hmm, ih (acc ++ [c])]
    · rw [if_neg hc, if_neg hc]
      by_cases hacc : acc.isEmpty
      · rw [if_pos (by simpa using hacc), if_pos hacc]
        simpa using ih []
      · rw [if_neg (by simpa using hacc), if_neg hacc]
        rw [List.map_cons]
        have := ih []
        simp only [List.map_nil] at this
        rw [this]

/-- Joining commutes with a blank-preserving character map. -/
theorem joinWords_map {f : Char → Char} (hf : f ' ' = ' ') (ts : List (List Char)) :
    joinWords (ts.map (List.map f)) = (joinWords ts).map f := by
  induction ts with
  | nil => rfl
  | cons t ts ih =>
    cases ts with
    | nil => rfl
    | cons t2 ts2 =>
      show List.map f t ++ ' ' :: joinWords ((t2 :: ts2).map (List.map f)) =
        (t ++ ' ' :: joinWords (t2 :: ts2)).map f
      rw [ih]
      simp [hf]

/-- NFKD-plus-strip-combining ignores a charwise accent stripping. -/
theorem stripCombining_nfkdStr_deAccent (l : List Char) :
    stripCombining (nfkdStr (l.map deAccent)) = stripCombining (nfkdStr l) := by
  induction l with
  | nil => rfl
  | cons c cs ih =>
    rw [List.map_cons]
    unfold nfkdStr stripCombining at *
    rw [List.flatMap_cons, List.flatMap_cons, List.filter_append, List.filter_append]
    rw [ih]
    have := stripCombining_nfkd_deAccent c
    unfold stripCombining at this
    rw [this]

/-- `remove_irrelevant` is idempotent. -/
theorem remove_irrelevant_chars_idem (l : List Char) :
    remove_irrelevant_chars (remove_irrelevant_chars l) = remove_irrelevant_chars l := by
  have hlow : (remove_irrelevant_chars l).map pyLower = remove_irrelevant_chars l :=
    map_eq_self_of (fun c hc => by
      rcases remove_irrelevant_chars_mem c hc with ⟨c0, hc0⟩
      rw [hc0, pyLower_idem])
  conv_lhs => rw [remove_irrelevant_chars]
  rw [hlow]
  unfold remove_irrelevant_chars
  rw [findWords_joinWords (by
    intro t ht
    have ht2 := List.mem_filter.1 ht
    exact findWordsAux_tokens [] (by intro c hc; cases hc) t ht2.1)]
  rw [List.filter_eq_self.2 (fun t ht => (List.mem_filter.1 ht).2)]

/-- C9 is false as stated: inputs differing only by whitespace (or only by
an accent) need not normalize identically, because token gluing can create
a stopword match. -/
theorem canonical_invariance_cex :
    canonical "on line" ≠ canonical "online" ∧
    canonical "onlíne" ≠ canonical "online" := by
  constructor
  · decide
  · decide

/-- C9 (amended): `canonical` identifies the intended equivalence classes
up to stopword interaction.
(i) Case differences never matter: inputs with the same lowering normalize
identically.
(ii) Whitespace amount, leading/trailing whitespace, punctuation used as a
separator, and stopword tokens never matter: inputs whose lowered token
sequences agree after dropping stopword tokens normalize identically.
(iii) Deleting the stopword tokens of an input does not change its
canonical form.
(iv) Accents do not matter provided stripping them does not change any
token's stopword status. -/
theorem canonical_invariance :
    (∀ s1 s2 : String, s1.data.map pyLower = s2.data.map pyLower →
      canonical s1 = canonical s2) ∧
    (∀ s1 s2 : String,
      (findWords (s1.data.map pyLower)).filter (fun t => !(tokenIrrelevant t)) =
        (findWords (s2.data.map pyLower)).filter (fun t => !(tokenIrrelevant t)) →
      canonical s1 = canonical s2) ∧
    (∀ s : String, canonical ⟨remove_irrelevant_chars s.data⟩ = canonical s) ∧
    (∀ s : String,
      (∀ t ∈ findWords (s.data.map pyLower),
        tokenIrrelevant (t.map deAccent) = tokenIrrelevant t) →
      canonical ⟨s.data.map deAccent⟩ = canonical s) := by
  refine ⟨?_, ?_, ?_, ?_⟩
  · intro s1 s2 h
    show (⟨canonical_chars s1.data⟩ : String) = ⟨canonical_chars s2.data⟩
    unfold canonical_chars remove_irrelevant_chars
    rw [h]
  · intro s1 s2 h
    show (⟨canonical_chars s1.data⟩ : String) = ⟨canonical_chars s2.data⟩
    unfold canonical_chars remove_irrelevant_chars
    rw [h]
  · intro s
    show (⟨canonical_chars (remove_irrelevant_chars s.data)⟩ : String) =
      ⟨canonical_chars s.data⟩
    unfold canonical_chars
    rw [remove_irrelevant_chars_idem]
  · intro s h
    show (⟨canonical_chars (s.data.map deAccent)⟩ : String) = ⟨canonical_chars s.data⟩
    have hs1 : remove_irrelevant_chars (s.data.map deAccent) =
        (remove_irrelevant_chars s.data).map deAccent := by
      unfold remove_irrelevant_chars
      have hcomm : (s.data.map deAccent).map pyLower = (s.data.map pyLower).map deAccent := by
        rw [List.map_map, List.map_map]
        exact List.map_congr_left (fun c _ => pyLower_deAccent c)
      rw [hcomm]
      have hfw : findWords ((s.data.map pyLower).map deAccent) =
          (findWords (s.data.map pyLower)).map (List.map deAccent) := by
        unfold findWords
        have := findWordsAux_map deAccent isWordChar_deAccent (s.data.map pyLower) []
        simpa using this
      rw [hfw, List.filter_map]
      have hfc : (findWords (s.data.map pyLower)).filter
            ((fun t => !(tokenIrrelevant t)) ∘ List.map deAccent) =
          (findWords (s.data.map pyLower)).filter (fun t => !(tokenIrrelevant t)) := by
        apply List.filter_congr
        intro t ht
        show (!(tokenIrrelevant (t.map deAccent))) = (!(tokenIrrelevant t))
        rw [h t ht]
      rw [hfc, joinWords_map (by decide)]
    unfold canonical_chars
    rw [hs1]
    show (⟨List.map pyLower (List.filter isWordChar
      (stripCombining (nfkdStr ((remove_irrelevant_chars s.data).map deAccent))))⟩ : String) = _
    rw [stripCombining_nfkdStr_deAccent]

/-- Witness for the amended C9. -/
theorem canonical_invariance_witness :
    canonical "CAFE" = canonical "cafe" ∧
    canonical "cafe,  x" = canonical " cafe x " ∧
    canonical ⟨remove_irrelevant_chars "english cafe".data⟩ = canonical "english cafe" ∧
    canonical ⟨"café x".data.map deAccent⟩ = canonical "café x" :=
  ⟨canonical_invariance.1 "CAFE" "cafe" (by decide),
   canonical_invariance.2.1 "cafe,  x" " cafe x " (by decide),
   canonical_invariance.2.2.1 "english cafe",
   canonical_invariance.2.2.2 "café x" (by decide)⟩

/-! ### Fuzzy-tolerant normalization (C10) -/

theorem mem_pyStrip {l : List Char} {c : Char} (h : c ∈ pyStrip l) : c ∈ l := by
  unfold pyStrip at h
  rw [List.mem_reverse] at h
  have h2 := (List.dropWhile_suffix isSpaceChar).sublist.mem h
  rw [List.mem_reverse] at h2
  exact (List.dropWhile_suffix isSpaceChar).sublist.mem h2

theorem head?_dropWhile_false {p : Char → Bool} {l : List Char} {c : Char}
    (h : (l.dropWhile p).head? = some c) : p c = false := by
  induction l with
  | nil => cases h
  | cons x xs ih =>
    rw [List.dropWhile_cons] at h
    split at h
    · exact ih h
    · rename_i hx
      rw [List.head?_cons, Option.some.injEq] at h
      subst h
      exact Bool.of_not_eq_true hx

theorem getLast?_dropWhile {p : Char → Bool} {l : List Char} {c : Char}
    (h : (l.dropWhile p).getLast? = some c) : l.getLast? = some c := by
  induction l with
  | nil => cases h
  | cons x xs ih =>
    rw [List.dropWhile_cons] at h
    split at h
    · have h2 := ih h
      cases xs with
      | nil => cases h2
      | cons y ys => rw [List.getLast?_cons_cons]; exact h2
    · exact h

/-- The output of `strip` neither starts nor ends with whitespace. -/
theorem pyStrip_head {l : List Char} {c : Char}
    (h : (pyStrip l).head? = some c) : isSpaceChar c = false := by
  unfold pyStrip at h
  rw [List.head?_reverse] at h
  have h2 := getLast?_dropWhile h
  rw [List.getLast?_reverse] at h2
  exact head?_dropWhile_false h2

theorem pyStrip_getLast {l : List Char} {c : Char}
    (h : (pyStrip l).getLast? = some c) : isSpaceChar c = false := by
  unfold pyStrip at h
  rw [List.getLast?_reverse] at h
  exact head?_dropWhile_false h

/-- Bridge between the boolean double-space detector and `Chain'`. -/
theorem hasDoubleSpace_eq_false_iff {l : List Char} :
    hasDoubleSpace l = false ↔
      List.Chain' (fun a b => ¬(isSpaceChar a = true ∧ isSpaceChar b = true)) l := by
  induction l with
  | nil => simp [hasDoubleSpace]
  | cons c cs ih =>
    cases cs with
    | nil => simp [hasDoubleSpace]
    | cons c2 cs2 =>
      rw [List.chain'_cons, ← ih]
      show (isSpaceChar c && isSpaceChar c2 || hasDoubleSpace (c2 :: cs2)) = false ↔
        ¬(isSpaceChar c = true ∧ isSpaceChar c2 = true) ∧
          hasDoubleSpace (c2 :: cs2) = false
      rw [Bool.or_eq_false_iff, Bool.and_eq_false_iff]
      constructor
      · rintro ⟨h1, h2⟩
        refine ⟨?_, h2⟩
        rintro ⟨ha, hb⟩
        rcases h1 with h1 | h1
        · rw [ha] at h1; cases h1
        · rw [hb] at h1; cases h1
      · rintro ⟨h1, h2⟩
        refine ⟨?_, h2⟩
        by_cases ha : isSpaceChar c = true
        · by_cases hb : isSpaceChar c2 = true
          · exact absurd ⟨ha, hb⟩ h1
          · exact Or.inr (Bool.of_not_eq_true hb)
        · exact Or.inl (Bool.of_not_eq_true ha)

/-- `strip` cannot create a double space. -/
theorem hasDoubleSpace_pyStrip {l : List Char}
    (h : hasDoubleSpace l = false) : hasDoubleSpace (pyStrip l) = false := by
  rw [hasDoubleSpace_eq_false_iff] at h ⊢
  unfold pyStrip
  rw [List.chain'_reverse]
  refine List.Chain'.suffix ?_ (List.dropWhile_suffix isSpaceChar)
  rw [List.chain'_reverse]
  have h2 : List.Chain' (fun a b => ¬(isSpaceChar a = true ∧ isSpaceChar b = true))
      (List.dropWhile isSpaceChar l) :=
    List.Chain'.suffix h (List.dropWhile_suffix isSpaceChar)
  refine h2.imp ?_
  intro a b hab
  rintro ⟨ha, hb⟩
  exact hab ⟨ha, hb⟩

/-- The head of a collapsed nonempty list: a blank if the input started with
whitespace, the original head otherwise. -/
theorem collapseSpaces_head (cs : List Char) :
    ∀ c : Char, (collapseSpaces (c :: cs)).head? =
      some (if isSpaceChar c = true then ' ' else c) := by
  induction cs with
  | nil =>
    intro c
    unfold collapseSpaces
    split <;> rfl
  | cons c2 cs2 ih =>
    intro c
    show (if isSpaceChar c = true then
        if isSpaceChar c2 = true then collapseSpaces (c2 :: cs2)
        else ' ' :: collapseSpaces (c2 :: cs2)
      else c :: collapseSpaces (c2 :: cs2)).head? = _
    by_cases hc : isSpaceChar c = true
    · rw [if_pos hc, if_pos hc]
      by_cases hc2 : isSpaceChar c2 = true
      · rw [if_pos hc2, ih c2, if_pos hc2]
      · rw [if_neg hc2]
        rfl
    · rw [if_neg hc, if_neg hc]
      rfl

/-- Collapsing leaves no double whitespace. -/
theorem hasDoubleSpace_collapseSpaces (l : List Char) :
    hasDoubleSpace (collapseSpaces l) = false := by
  induction l with
  | nil => rfl
  | cons c cs ih =>
    cases cs with
    | nil =>
      unfold collapseSpaces
      split <;> rfl
    | cons c2 cs2 =>
      show hasDoubleSpace (if isSpaceChar c = true then
          if isSpaceChar c2 = true then collapseSpaces (c2 :: cs2)
          else ' ' :: collapseSpaces (c2 :: cs2)
        else c :: collapseSpaces (c2 :: cs2)) = false
      by_cases hc : isSpaceChar c = true
      · rw [if_pos hc]
        by_cases hc2 : isSpaceChar c2 = true
        · rw [if_pos hc2]
          exact ih
        · rw [if_neg hc2]
          cases hX : collapseSpaces (c2 :: cs2) with
          | nil => rfl
          | cons d rest =>
            have hd := collapseSpaces_head cs2 c2
            rw [hX, if_neg hc2, List.head?_cons, Option.some.injEq] at hd
            show (isSpaceChar ' ' && isSpaceChar d || hasDoubleSpace (d :: rest)) = false
            rw [← hX, ih]
            simp [hd, Bool.of_not_eq_true hc2]
      · rw [if_neg hc]
        cases hX : collapseSpaces (c2 :: cs2) with
        | nil => rfl
        | cons d rest =>
          show (isSpaceChar c && isSpaceChar d || hasDoubleSpace (d :: rest)) = false
          rw [← hX, ih, Bool.of_not_eq_true hc]
          rfl

/-- Collapsing introduces no characters other than the blank. -/
theorem mem_collapseSpaces {l : List Char} :
    ∀ c ∈ collapseSpaces l, c ∈ l ∨ c = ' ' := by
  induction l with
  | nil => intro c hc; cases hc
  | cons x cs ih =>
    cases cs with
    | nil =>
      intro c hc
      unfold collapseSpaces at hc
      split at hc
      · rw [List.mem_singleton] at hc
        exact Or.inr hc
      · rw [List.mem_singleton] at hc
        subst hc
        exact Or.inl (List.mem_cons_self _ _)
    | cons c2 cs2 =>
      intro c hc
      rw [show collapseSpaces (x :: c2 :: cs2) = (if isSpaceChar x = true then
          if isSpaceChar c2 = true then collapseSpaces (c2 :: cs2)
          else ' ' :: collapseSpaces (c2 :: cs2)
        else x :: collapseSpaces (c2 :: cs2)) from rfl] at hc
      split at hc
      · split at hc
        · rcases ih c hc with h1 | h1
          · exact Or.inl (List.mem_cons_of_mem _ h1)
          · exact Or.inr h1
        · rcases List.mem_cons.1 hc with h1 | h1
          · exact Or.inr h1
          · rcases ih c h1 with h2 | h2
            · exact Or.inl (List.mem_cons_of_mem _ h2)
            · exact Or.inr h2
      · rcases List.mem_cons.1 hc with h1 | h1
        · subst h1
          exact Or.inl (List.mem_cons_self _ _)
        · rcases ih c h1 with h2 | h2
          · exact Or.inl (List.mem_cons_of_mem _ h2)
          · exact Or.inr h2

theorem isDigitChar_pyLower (c : Char) : isDigitChar (pyLower c) = isDigitChar c := by
  cases h : pyLowerTable.find? (fun p => p.1 == c) with
  | some p =>
    have hk := pyLowerTable_key h
    subst hk
    rw [show pyLower p.1 = p.2 from by simp only [pyLower, h]]
    have hm := List.mem_of_find?_eq_some h
    fin_cases hm <;> decide
  | none => rw [pyLower_of_find?_none h]

/-- NFKD cannot create digits. -/
theorem nfkdChar_digit {c : Char} (h : isDigitChar c = false) :
    ∀ d ∈ nfkdChar c, isDigitChar d = false := by
  cases h2 : nfkdTable.find? (fun p => p.1 == c) with
  | some p =>
    rw [show nfkdChar c = p.2 from by simp only [nfkdChar, h2]]
    have hm := List.mem_of_find?_eq_some h2
    fin_cases hm <;> decide
  | none =>
    rw [nfkdChar_of_find?_none h2]
    intro d hd
    rw [List.mem_singleton] at hd
    subst hd
    exact h

theorem hasDoubleSpace_cons_of_nonspace {c : Char} {l : List Char}
    (hc : isSpaceChar c = false) : hasDoubleSpace (c :: l) = hasDoubleSpace l := by
  cases l with
  | nil => rfl
  | cons c2 cs =>
    show (isSpaceChar c && isSpaceChar c2 || hasDoubleSpace (c2 :: cs)) = _
    rw [hc]
    simp

theorem hasDoubleSpace_tail {c : Char} {l : List Char}
    (h : hasDoubleSpace (c :: l) = false) : hasDoubleSpace l = false := by
  cases l with
  | nil => rfl
  | cons c2 cs =>
    have h2 : (isSpaceChar c && isSpaceChar c2 || hasDoubleSpace (c2 :: cs)) = false := h
    rw [Bool.or_eq_false_iff] at h2
    exact h2.2

theorem hasDoubleSpace_of_nonspace {l : List Char}
    (h : ∀ c ∈ l, isSpaceChar c = false) : hasDoubleSpace l = false := by
  induction l with
  | nil => rfl
  | cons c cs ih =>
    rw [hasDoubleSpace_cons_of_nonspace (h c (List.mem_cons_self c cs))]
    exact ih (fun c hc => h c (List.mem_cons_of_mem _ hc))

/-- Collapsing is the identity on lists whose whitespace is single blanks. -/
theorem collapseSpaces_eq_self {l : List Char} (hnd : hasDoubleSpace l = false)
    (hsp : ∀ c ∈ l, isSpaceChar c = false ∨ c = ' ') : collapseSpaces l = l := by
  induction l with
  | nil => rfl
  | cons c cs ih =>
    cases cs with
    | nil =>
      unfold collapseSpaces
      split
      · rename_i hc
        rcases hsp c (List.mem_cons_self c []) with h1 | h1
        · rw [hc] at h1; cases h1
        · rw [h1]
      · rfl
    | cons c2 cs2 =>
      have ihtail := ih (hasDoubleSpace_tail hnd)
        (fun c hc => hsp c (List.mem_cons_of_mem _ hc))
      show (if isSpaceChar c = true then
          if isSpaceChar c2 = true then collapseSpaces (c2 :: cs2)
          else ' ' :: collapseSpaces (c2 :: cs2)
        else c :: collapseSpaces (c2 :: cs2)) = c :: c2 :: cs2
      by_cases hc : isSpaceChar c = true
      · rw [if_pos hc]
        have hc2 : isSpaceChar c2 = false := by
          have h2 : (isSpaceChar c && isSpaceChar c2 || hasDoubleSpace (c2 :: cs2)) = false := hnd
          rw [Bool.or_eq_false_iff, Bool.and_eq_false_iff] at h2
          rcases h2.1 with h3 | h3
          · rw [hc] at h3; cases h3
          · exact h3
        rw [if_neg (by rw [hc2]; intro hx; cases hx), ihtail]
        rcases hsp c (List.mem_cons_self _ _) with h1 | h1
        · rw [hc] at h1; cases h1
        · rw [h1]
      · rw [if_neg hc, ihtail]

theorem mem_of_getLast?_eq {l : List Char} {c : Char} (h : l.getLast? = some c) :
    c ∈ l := by
  rw [← List.head?_reverse] at h
  cases hrev : l.reverse with
  | nil => rw [hrev] at h; cases h
  | cons d rest =>
    rw [hrev, List.head?_cons, Option.some.injEq] at h
    subst h
    rw [← List.mem_reverse, hrev]
    exact List.mem_cons_self _ _

/-- `strip` is the identity when neither end is whitespace. -/
theorem pyStrip_eq_self {l : List Char}
    (h1 : ∀ c, l.head? = some c → isSpaceChar c = false)
    (h2 : ∀ c, l.getLast? = some c → isSpaceChar c = false) :
    pyStrip l = l := by
  cases l with
  | nil => rfl
  | cons c cs =>
    unfold pyStrip
    have hc := h1 c rfl
    rw [List.dropWhile_cons, if_neg (by rw [hc]; intro hx; cases hx)]
    cases hrev : (c :: cs).reverse with
    | nil =>
      rw [List.reverse_eq_nil_iff] at hrev
      cases hrev
    | cons d rest =>
      have hd : (c :: cs).getLast? = some d := by
        rw [← List.head?_reverse, hrev, List.head?_cons]
      have hdns := h2 d hd
      rw [List.dropWhile_cons, if_neg (by rw [hdns]; intro hx; cases hx), ← hrev,
        List.reverse_reverse]

theorem hasDoubleSpace_append_single {t1 t2 : List Char}
    (h1 : ∀ c ∈ t1, isSpaceChar c = false) (h2 : ∀ c ∈ t2, isSpaceChar c = false) :
    hasDoubleSpace (t1 ++ ' ' :: t2) = false := by
  induction t1 with
  | nil =>
    rw [List.nil_append]
    cases t2 with
    | nil => rfl
    | cons b t2' =>
      show (isSpaceChar ' ' && isSpaceChar b || hasDoubleSpace (b :: t2')) = false
      rw [h2 b (List.mem_cons_self b t2'), hasDoubleSpace_of_nonspace h2]
      simp
  | cons a t1' ih =>
    rw [List.cons_append,
      hasDoubleSpace_cons_of_nonspace (h1 a (List.mem_cons_self a t1'))]
    exact ih (fun c hc => h1 c (List.mem_cons_of_mem _ hc))

/-- On two plain non-stopword tokens separated by one blank, the
fuzzy-tolerant normalization is the identity: the word boundary survives. -/
theorem normalizar_two_tokens {t1 t2 : List Char} (hne1 : t1 ≠ []) (hne2 : t2 ≠ [])
    (hp1 : ∀ c ∈ t1, plainChar c = true) (hp2 : ∀ c ∈ t2, plainChar c = true)
    (hi1 : tokenIrrelevant t1 = false) (hi2 : tokenIrrelevant t2 = false) :
    normalizar_cadena_chars (t1 ++ ' ' :: t2) = t1 ++ ' ' :: t2 := by
  have hplain : ∀ c ∈ t1 ++ ' ' :: t2, plainChar c = true ∨ c = ' ' := by
    intro c hc
    rcases List.mem_append.1 hc with h | h
    · exact Or.inl (hp1 c h)
    · rcases List.mem_cons.1 h with h | h
      · exact Or.inr h
      · exact Or.inl (hp2 c h)
  have hlow : (t1 ++ ' ' :: t2).map pyLower = t1 ++ ' ' :: t2 :=
    map_eq_self_of (fun c hc => by
      rcases hplain c hc with h | h
      · exact (plainChar_facts h).1
      · rw [h]; decide)
  have hword1 : ∀ c ∈ t1, isWordChar c = true :=
    fun c hc => (plainChar_facts (hp1 c hc)).2.2.2.1
  have hword2 : ∀ c ∈ t2, isWordChar c = true :=
    fun c hc => (plainChar_facts (hp2 c hc)).2.2.2.1
  have hsp1 : ∀ c ∈ t1, isSpaceChar c = false :=
    fun c hc => (plainChar_facts (hp1 c hc)).2.2.2.2.2.2.2.1
  have hsp2 : ∀ c ∈ t2, isSpaceChar c = false :=
    fun c hc => (plainChar_facts (hp2 c hc)).2.2.2.2.2.2.2.1
  have hfw : findWords (t1 ++ ' ' :: t2) = [t1, t2] := by
    unfold findWords
    rw [findWordsAux_word_run hword1 _ [], List.nil_append, findWordsAux_space t2 t1,
      if_neg (by simpa using hne1), findWordsAux_all_word hword2 [], List.nil_append,
      if_neg (by simpa using hne2)]
  have hs1 : remove_irrelevant_chars (t1 ++ ' ' :: t2) = t1 ++ ' ' :: t2 := by
    unfold remove_irrelevant_chars
    rw [hlow, hfw, List.filter_cons, List.filter_cons, List.filter_nil,
      if_pos (by rw [hi1]; rfl), if_pos (by rw [hi2]; rfl)]
    rfl
  have hnf : nfkdStr (t1 ++ ' ' :: t2) = t1 ++ ' ' :: t2 :=
    flatMap_eq_self_of (fun c hc => by
      rcases hplain c hc with h | h
      · exact (plainChar_facts h).2.1
      · rw [h]; decide)
  have hsc : stripCombining (t1 ++ ' ' :: t2) = t1 ++ ' ' :: t2 :=
    List.filter_eq_self.2 (fun c hc => by
      rcases hplain c hc with h | h
      · rw [Bool.not_eq_true', (plainChar_facts h).2.2.1]
      · rw [h]; decide)
  have hhead : ∀ c, (t1 ++ ' ' :: t2).head? = some c → isSpaceChar c = false := by
    intro c hc
    cases t1 with
    | nil => exact absurd rfl hne1
    | cons a t1' =>
      rw [List.cons_append, List.head?_cons, Option.some.injEq] at hc
      subst hc
      exact hsp1 a (List.mem_cons_self _ _)
  have hlast : ∀ c, (t1 ++ ' ' :: t2).getLast? = some c → isSpaceChar c = false := by
    intro c hc
    rw [List.getLast?_append_of_ne_nil _ (by intro h; cases h)] at hc
    cases t2 with
    | nil => exact absurd rfl hne2
    | cons b t2' =>
      rw [List.getLast?_cons_cons] at hc
      exact hsp2 c (mem_of_getLast?_eq hc)
  have hstrip : pyStrip (t1 ++ ' ' :: t2) = t1 ++ ' ' :: t2 := pyStrip_eq_self hhead hlast
  have hs4 : (t1 ++ ' ' :: t2).map
      (fun c => if isApostropheVariant c then '\'' else c) = t1 ++ ' ' :: t2 :=
    map_eq_self_of (fun c hc => by
      rcases hplain c hc with h | h
      · rw [(plainChar_facts h).2.2.2.2.2.1]
        rfl
      · rw [h]; decide)
  have hs5 : (t1 ++ ' ' :: t2).map (fun c => if isDashChar c then ' ' else c) =
      t1 ++ ' ' :: t2 :=
    map_eq_self_of (fun c hc => by
      rcases hplain c hc with h | h
      · rw [(plainChar_facts h).2.2.2.2.2.2.1]
        rfl
      · rw [h]; decide)
  have hs6 : (t1 ++ ' ' :: t2).map
      (fun c => if !(isWordChar c || isSpaceChar c || c == '\'') then ' ' else c) =
      t1 ++ ' ' :: t2 :=
    map_eq_self_of (fun c hc => by
      rcases hplain c hc with h | h
      · rw [(plainChar_facts h).2.2.2.1]
        rfl
      · rw [h]; decide)
  have hnd : hasDoubleSpace (t1 ++ ' ' :: t2) = false :=
    hasDoubleSpace_append_single hsp1 hsp2
  have hcol : collapseSpaces (t1 ++ ' ' :: t2) = t1 ++ ' ' :: t2 :=
    collapseSpaces_eq_self hnd (fun c hc => by
      rcases hplain c hc with h | h
      · exact Or.inl (plainChar_facts h).2.2.2.2.2.2.2.1
      · exact Or.inr h)
  have hs8 : List.filter (fun c => !(isDigitChar c)) (t1 ++ ' ' :: t2) =
      t1 ++ ' ' :: t2 :=
    List.filter_eq_self.2 (fun c hc => by
      rcases hplain c hc with h | h
      · rw [Bool.not_eq_true', (plainChar_facts h).2.2.2.2.1]
      · rw [h]; decide)
  show pyStrip (List.filter (fun c => !(isDigitChar c)) (collapseSpaces
    (List.map (fun c => if !(isWordChar c || isSpaceChar c || c == '\'') then ' ' else c)
      (List.map (fun c => if isDashChar c then ' ' else c)
        (List.map (fun c => if isApostropheVariant c then '\'' else c)
          (List.map pyLower (pyStrip (stripCombining (nfkdStr
            (remove_irrelevant_chars (t1 ++ ' ' :: t2))))))))))) = t1 ++ ' ' :: t2
  rw [hs1, hnf, hsc, hstrip, hlow, hs4, hs5, hs6, hcol, hs8, hstrip]

theorem normalizar_cadena_eq_mk (s : String) :
    normalizar_cadena s = ⟨normalizar_cadena_chars s.data⟩ := rfl

theorem string_mk_data (l : List Char) : (⟨l⟩ : String).data = l := rfl

/-- C10 is false as stated: `re.sub(r"\d+", "")` runs *after* whitespace
collapsing, so deleting an all-digit token leaves two adjacent blanks. -/
theorem normalizar_cadena_double_space_cex :
    normalizar_cadena "a 1 b" = "a  b" ∧
    hasDoubleSpace (normalizar_cadena "a 1 b").data = true :=
  ⟨by decide, by decide⟩

/-- Digit-freeness of every stage up to the whitespace collapse. -/
theorem normalizar_s6_no_digit {l : List Char} (hl : ∀ c ∈ l, isDigitChar c = false) :
    ∀ c ∈ (List.map (fun c => if !(isWordChar c || isSpaceChar c || c == '\'') then ' ' else c)
      (List.map (fun c => if isDashChar c then ' ' else c)
        (List.map (fun c => if isApostropheVariant c then '\'' else c)
          (List.map pyLower (pyStrip (stripCombining (nfkdStr
            (remove_irrelevant_chars l)))))))), isDigitChar c = false := by
  have h1 : ∀ c ∈ remove_irrelevant_chars l, isDigitChar c = false := by
    intro c hc
    unfold remove_irrelevant_chars at hc
    rcases joinWords_chars c hc with ⟨t, ht, hct⟩ | hsp
    · have ht2 := List.mem_filter.1 ht
      rcases findWordsAux_chars [] t ht2.1 c hct with hx | hx
      · cases hx
      · rcases List.mem_map.1 hx with ⟨c0, hc0, hlow⟩
        rw [← hlow, isDigitChar_pyLower]
        exact hl c0 hc0
    · rw [hsp]; rfl
  have h2 : ∀ c ∈ stripCombining (nfkdStr (remove_irrelevant_chars l)),
      isDigitChar c = false := by
    intro c hc
    have hc2 := (List.mem_filter.1 hc).1
    rcases List.mem_flatMap.1 hc2 with ⟨c0, hc0, hnf⟩
    exact nfkdChar_digit (h1 c0 hc0) c hnf
  have h3 : ∀ c ∈ List.map pyLower (pyStrip (stripCombining (nfkdStr
      (remove_irrelevant_chars l)))), isDigitChar c = false := by
    intro c hc
    rcases List.mem_map.1 hc with ⟨c0, hc0, hlow⟩
    rw [← hlow, isDigitChar_pyLower]
    exact h2 c0 (mem_pyStrip hc0)
  have h4 : ∀ c ∈ List.map (fun c => if isApostropheVariant c then '\'' else c)
      (List.map pyLower (pyStrip (stripCombining (nfkdStr
        (remove_irrelevant_chars l))))), isDigitChar c = false := by
    intro c hc
    rcases List.mem_map.1 hc with ⟨c0, hc0, heq⟩
    by_cases ha : isApostropheVariant c0 = true
    · rw [← heq, if_pos ha]; rfl
    · rw [← heq, if_neg ha]; exact h3 c0 hc0
  have h5 : ∀ c ∈ List.map (fun c => if isDashChar c then ' ' else c)
      (List.map (fun c => if isApostropheVariant c then '\'' else c)
        (List.map pyLower (pyStrip (stripCombining (nfkdStr
          (remove_irrelevant_chars l)))))), isDigitChar c = false := by
    intro c hc
    rcases List.mem_map.1 hc with ⟨c0, hc0, heq⟩
    by_cases ha : isDashChar c0 = true
    · rw [← heq, if_pos ha]; rfl
    · rw [← heq, if_neg ha]; exact h4 c0 hc0
  intro c hc
  rcases List.mem_map.1 hc with ⟨c0, hc0, heq⟩
  by_cases ha : (!(isWordChar c0 || isSpaceChar c0 || c0 == '\'')) = true
  · rw [← heq, if_pos ha]; rfl
  · rw [← heq, if_neg ha]; exact h5 c0 hc0

/-- C10 (amended): the fuzzy-tolerant normalization output never contains a
digit and never starts or ends with whitespace; it contains no run of two
or more whitespace characters **provided the input contains no digit**
(deleting digits can merge two blanks); and it is not compressed to
alphanumeric-only: on two plain non-stopword tokens separated by a blank it
is the identity, keeping the word boundary. -/
theorem normalizar_cadena_spec :
    (∀ s : String, ∀ c ∈ (normalizar_cadena s).data, isDigitChar c = false) ∧
    (∀ (s : String) (c : Char), (normalizar_cadena s).data.head? = some c →
      isSpaceChar c = false) ∧
    (∀ (s : String) (c : Char), (normalizar_cadena s).data.getLast? = some c →
      isSpaceChar c = false) ∧
    (∀ s : String, (∀ c ∈ s.data, isDigitChar c = false) →
      hasDoubleSpace (normalizar_cadena s).data = false) ∧
    (∀ t1 t2 : List Char, t1 ≠ [] → t2 ≠ [] →
      (∀ c ∈ t1, plainChar c = true) → (∀ c ∈ t2, plainChar c = true) →
      tokenIrrelevant t1 = false → tokenIrrelevant t2 = false →
      normalizar_cadena_chars (t1 ++ ' ' :: t2) = t1 ++ ' ' :: t2) := by
  refine ⟨?_, ?_, ?_, ?_, ?_⟩
  · intro s c hc
    rw [normalizar_cadena_eq_mk, string_mk_data] at hc
    unfold normalizar_cadena_chars at hc
    have h2 := List.mem_filter.1 (mem_pyStrip hc)
    have h3 := h2.2
    rw [Bool.not_eq_true'] at h3
    exact h3
  · intro s c hc
    rw [normalizar_cadena_eq_mk, string_mk_data] at hc
    unfold normalizar_cadena_chars at hc
    exact pyStrip_head hc
  · intro s c hc
    rw [normalizar_cadena_eq_mk, string_mk_data] at hc
    unfold normalizar_cadena_chars at hc
    exact pyStrip_getLast hc
  · intro s hs
    rw [normalizar_cadena_eq_mk, string_mk_data]
    unfold normalizar_cadena_chars
    have h6 := normalizar_s6_no_digit hs
    have h7 : ∀ c ∈ collapseSpaces (List.map
        (fun c => if !(isWordChar c || isSpaceChar c || c == '\'') then ' ' else c)
        (List.map (fun c => if isDashChar c then ' ' else c)
          (List.map (fun c => if isApostropheVariant c then '\'' else c)
            (List.map pyLower (pyStrip (stripCombining (nfkdStr
              (remove_irrelevant_chars s.data)))))))), isDigitChar c = false := by
      intro c hc
      rcases mem_collapseSpaces c hc with h | h
      · exact h6 c h
      · rw [h]; rfl
    rw [List.filter_eq_self.2 (fun c hc => by rw [Bool.not_eq_true', h7 c hc])]
    exact hasDoubleSpace_pyStrip (hasDoubleSpace_collapseSpaces _)
  · intro t1 t2 h1 h2 h3 h4 h5 h6
    exact normalizar_two_tokens h1 h2 h3 h4 h5 h6

/-- Witness for the amended C10. -/
theorem normalizar_cadena_spec_witness :
    isDigitChar 'b' = false ∧
    isSpaceChar 'x' = false ∧
    isSpaceChar 'y' = false ∧
    hasDoubleSpace (normalizar_cadena "hola  mundo").data = false ∧
    normalizar_cadena_chars ("cafe".data ++ ' ' :: "sol".data) =
      "cafe".data ++ ' ' :: "sol".data :=
  ⟨normalizar_cadena_spec.1 "ab2" 'b' (by decide),
   normalizar_cadena_spec.2.1 " x" 'x' (by decide),
   normalizar_cadena_spec.2.2.1 "y " 'y' (by decide),
   normalizar_cadena_spec.2.2.2.1 "hola  mundo" (by decide),
   normalizar_cadena_spec.2.2.2.2 "cafe".data "sol".data (by decide) (by decide)
     (by decide) (by decide) (by decide) (by decide)⟩

/-! ### Lemmas for `fuzzy_find` (C6) -/

/-- A fold of `extractStep` returns `none` only if it started from `none`
and every candidate scored strictly below the cutoff. -/
theorem foldl_extractStep_none {scorer : String → String → Nat} {q : String} {c : Nat} :
    ∀ (keys : List String) (acc : Option (String × Nat)),
      keys.foldl (extractStep scorer q c) acc = none →
      acc = none ∧ ∀ k ∈ keys, scorer q k < c := by
  intro keys
  induction keys with
  | nil =>
    intro acc h
    rw [List.foldl_nil] at h
    refine ⟨h, ?_⟩
    intro k hk
    simp at hk
  | cons k1 keys ih =>
    intro acc h
    rw [List.foldl_cons] at h
    rcases ih _ h with ⟨hstep, hrest⟩
    cases acc with
    | none =>
      simp only [extractStep] at hstep
      by_cases hle : c ≤ scorer q k1
      · rw [if_pos hle] at hstep
        cases hstep
      · refine ⟨rfl, ?_⟩
        intro k hk
        rcases List.mem_cons.1 hk with h1 | h1
        · subst h1
          omega
        · exact hrest k h1
    | some p =>
      obtain ⟨k0, s0⟩ := p
      simp only [extractStep] at hstep
      by_cases hlt : s0 < scorer q k1
      · rw [if_pos hlt] at hstep
        cases hstep
      · rw [if_neg hlt] at hstep
        cases hstep

/-- If every candidate scores below the cutoff, `extractStep` folds to
`none`. -/
theorem foldl_extractStep_none_of {scorer : String → String → Nat} {q : String} {c : Nat} :
    ∀ (keys : List String), (∀ k ∈ keys, scorer q k < c) →
      keys.foldl (extractStep scorer q c) none = none := by
  intro keys
  induction keys with
  | nil => intro _; rfl
  | cons k1 keys ih =>
    intro h
    rw [List.foldl_cons]
    have hk1 := h k1 (List.mem_cons_self k1 keys)
    have h1 : extractStep scorer q c none k1 = none := by
      simp only [extractStep]
      rw [if_neg (by omega)]
    rw [h1]
    exact ih (fun k hk => h k (List.mem_cons_of_mem _ hk))

/-- `extractOne` reports no match exactly when every candidate key scores
strictly below the cutoff. -/
theorem extractOne_eq_none_iff {scorer : String → String → Nat} {q : String} {c : Nat}
    (keys : List String) :
    extractOne scorer q keys c = none ↔ ∀ k ∈ keys, scorer q k < c := by
  constructor
  · intro h
    exact (foldl_extractStep_none keys none h).2
  · intro h
    exact foldl_extractStep_none_of keys h

/-- Accumulator invariant for the `some` case of the `extractStep` fold:
if every pair stored in the accumulator is a candidate scored by `scorer`
at or above the cutoff, then a `some (k, s)` result records the score of
`k`, reaches the cutoff, dominates every key of the list, and comes either
from the accumulator or from the list; it also dominates the accumulator. -/
theorem foldl_extractStep_some {scorer : String → String → Nat} {q : String} {c : Nat} :
    ∀ (keys : List String) (acc : Option (String × Nat)) (k : String) (s : Nat),
      (∀ k0 s0, acc = some (k0, s0) → s0 = scorer q k0 ∧ c ≤ s0) →
      keys.foldl (extractStep scorer q c) acc = some (k, s) →
      s = scorer q k ∧ c ≤ s ∧ (∀ k2 ∈ keys, scorer q k2 ≤ s) ∧
        (acc = some (k, s) ∨ k ∈ keys) ∧
        (∀ k0 s0, acc = some (k0, s0) → s0 ≤ s) := by
  intro keys
  induction keys with
  | nil =>
    intro acc k s hacc h
    rw [List.foldl_nil] at h
    rcases hacc k s h with ⟨h1, h2⟩
    refine ⟨h1, h2, ?_, Or.inl h, ?_⟩
    · intro k2 hk2
      simp at hk2
    · intro k0 s0 h0
      rw [h0] at h
      simp only [Option.some.injEq, Prod.mk.injEq] at h
      omega
  | cons k1 keys ih =>
    intro acc k s hacc h
    rw [List.foldl_cons] at h
    have hstep_good : ∀ k0 s0, extractStep scorer q c acc k1 = some (k0, s0) →
        s0 = scorer q k0 ∧ c ≤ s0 := by
      intro k0 s0 hstep
      cases acc with
      | none =>
        simp only [extractStep] at hstep
        by_cases hle : c ≤ scorer q k1
        · rw [if_pos hle] at hstep
          simp only [Option.some.injEq, Prod.mk.injEq] at hstep
          rcases hstep with ⟨hk, hs⟩
          refine ⟨by rw [← hs, hk], by omega⟩
        · rw [if_neg hle] at hstep
          cases hstep
      | some p =>
        obtain ⟨ka, sa⟩ := p
        rcases hacc ka sa rfl with ⟨hsa, hca⟩
        simp only [extractStep] at hstep
        by_cases hlt : sa < scorer q k1
        · rw [if_pos hlt] at hstep
          simp only [Option.some.injEq, Prod.mk.injEq] at hstep
          rcases hstep with ⟨hk, hs⟩
          refine ⟨by rw [← hs, hk], by omega⟩
        · rw [if_neg hlt] at hstep
          simp only [Option.some.injEq, Prod.mk.injEq] at hstep
          rcases hstep with ⟨hk, hs⟩
          refine ⟨?_, by omega⟩
          rw [← hs, ← hk]
          exact hsa
    rcases ih _ k s hstep_good h with ⟨ih1, ih2, ih3, ih4, ih5⟩
    refine ⟨ih1, ih2, ?_, ?_, ?_⟩
    · intro k2 hk2
      rcases List.mem_cons.1 hk2 with h1 | h1
      · rw [h1]
        cases hstep : extractStep scorer q c acc k1 with
        | none =>
          cases acc with
          | none =>
            simp only [extractStep] at hstep
            by_cases hle : c ≤ scorer q k1
            · rw [if_pos hle] at hstep
              cases hstep
            · omega
          | some p =>
            obtain ⟨ka, sa⟩ := p
            simp only [extractStep] at hstep
            by_cases hlt : sa < scorer q k1
            · rw [if_pos hlt] at hstep
              cases hstep
            · rw [if_neg hlt] at hstep
              cases hstep
        | some p =>
          obtain ⟨kb, sb⟩ := p
          have hb : sb ≤ s := ih5 kb sb hstep
          cases acc with
          | none =>
            simp only [extractStep] at hstep
            by_cases hle : c ≤ scorer q k1
            · rw [if_pos hle] at hstep
              simp only [Option.some.injEq, Prod.mk.injEq] at hstep
              rcases hstep with ⟨hk, hs⟩
              omega
            · rw [if_neg hle] at hstep
              cases hstep
          | some p2 =>
            obtain ⟨ka, sa⟩ := p2
            simp only [extractStep] at hstep
            by_cases hlt : sa < scorer q k1
            · rw [if_pos hlt] at hstep
              simp only [Option.some.injEq, Prod.mk.injEq] at hstep
              rcases hstep with ⟨hk, hs⟩
              omega
            · rw [if_neg hlt] at hstep
              simp only [Option.some.injEq, Prod.mk.injEq] at hstep
              rcases hstep with ⟨hk, hs⟩
              omega
      · exact ih3 k2 h1
    · rcases ih4 with h1 | h1
      · cases acc with
        | none =>
          simp only [extractStep] at h1
          by_cases hle : c ≤ scorer q k1
          · rw [if_pos hle] at h1
            simp only [Option.some.injEq, Prod.mk.injEq] at h1
            rcases h1 with ⟨hk, hs⟩
            refine Or.inr ?_
            rw [← hk]
            exact List.mem_cons_self k1 keys
          · rw [if_neg hle] at h1
            cases h1
        | some p =>
          obtain ⟨ka, sa⟩ := p
          simp only [extractStep] at h1
          by_cases hlt : sa < scorer q k1
          · rw [if_pos hlt] at h1
            simp only [Option.some.injEq, Prod.mk.injEq] at h1
            rcases h1 with ⟨hk, hs⟩
            refine Or.inr ?_
            rw [← hk]
            exact List.mem_cons_self k1 keys
          · rw [if_neg hlt] at h1
            simp only [Option.some.injEq, Prod.mk.injEq] at h1
            rcases h1 with ⟨hk, hs⟩
            refine Or.inl ?_
            rw [hk, hs]
      · exact Or.inr (List.mem_cons_of_mem _ h1)
    · intro k0 s0 h0
      subst h0
      by_cases hlt : s0 < scorer q k1
      · have h2 := ih5 k1 (scorer q k1) (by simp only [extractStep]; rw [if_pos hlt])
        omega
      · have h2 := ih5 k0 s0 (by simp only [extractStep]; rw [if_neg hlt])
        omega

/-- A `some` answer of `extractOne` names a candidate key, carries its
score, reaches the cutoff, and dominates every candidate. -/
theorem extractOne_eq_some {scorer : String → String → Nat} {q : String} {c : Nat}
    {keys : List String} {k : String} {s : Nat}
    (h : extractOne scorer q keys c = some (k, s)) :
    k ∈ keys ∧ s = scorer q k ∧ c ≤ s ∧ ∀ k2 ∈ keys, scorer q k2 ≤ s := by
  have h0 : ∀ k0 s0, (none : Option (String × Nat)) = some (k0, s0) →
      s0 = scorer q k0 ∧ c ≤ s0 := by
    intro k0 s0 h0
    cases h0
  rcases foldl_extractStep_some keys none k s h0 h with ⟨h1, h2, h3, h4, h5⟩
  rcases h4 with h4 | h4
  · cases h4
  · exact ⟨h4, h1, h2, h3⟩

/-- A key occurring among the keys of an association list is looked up to
some value. -/
theorem lookup_of_mem_keys {α : Type} :
    ∀ (choices : List (String × α)) (k : String),
      k ∈ choices.map (fun p => p.1) → ∃ v, List.lookup k choices = some v := by
  intro choices
  induction choices with
  | nil =>
    intro k h
    simp at h
  | cons p ps ih =>
    obtain ⟨k1, v1⟩ := p
    intro k h
    by_cases hk : k = k1
    · subst hk
      exact ⟨v1, by simp [List.lookup]⟩
    · have hb : (k == k1) = false := by simp [hk]
      have h2 : k ∈ ps.map (fun p => p.1) := by
        simp only [List.map_cons, List.mem_cons] at h
        rcases h with h | h
        · exact absurd h hk
        · exact h
      rcases ih k h2 with ⟨v, hv⟩
      refine ⟨v, ?_⟩
      simp only [List.lookup]
      rw [hb]
      exact hv

/-- **C6**: `fuzzy_find` returns not-found (`none`) whenever the raw string
is empty or the candidate map is empty; otherwise it returns `none` exactly
when every candidate key scores strictly below the threshold against the
fuzzy-normalized raw string, and any value it returns is the value of a
highest-scoring candidate key whose score is at least the threshold — so a
candidate scoring exactly at the threshold is accepted and one scoring
below it is rejected. -/
theorem fuzzy_find_spec {α : Type} (scorer : String → String → Nat) (t : Nat)
    (raw : String) (choices : List (String × α)) :
    (raw = "" → fuzzy_find raw choices scorer t = none) ∧
    (choices = [] → fuzzy_find raw choices scorer t = none) ∧
    (raw ≠ "" → choices ≠ [] →
      ((fuzzy_find raw choices scorer t = none ↔
          ∀ k ∈ choices.map (fun p => p.1),
            scorer (normalizar_cadena raw) k < t) ∧
        ∀ v, fuzzy_find raw choices scorer t = some v →
          ∃ k, k ∈ choices.map (fun p => p.1) ∧
            t ≤ scorer (normalizar_cadena raw) k ∧
            (∀ k2 ∈ choices.map (fun p => p.1),
              scorer (normalizar_cadena raw) k2 ≤ scorer (normalizar_cadena raw) k) ∧
            List.lookup k choices = some v)) := by
  refine ⟨?_, ?_, ?_⟩
  · intro h
    subst h
    simp [fuzzy_find]
  · intro h
    subst h
    simp [fuzzy_find]
  · intro hr hc
    have h1 : (raw == "") = false := by simp [hr]
    have h2 : choices.isEmpty = false := by
      cases choices with
      | nil => exact absurd rfl hc
      | cons p ps => rfl
    have hff : fuzzy_find raw choices scorer t =
        match extractOne scorer (normalizar_cadena raw)
            (choices.map (fun p => p.1)) t with
        | some res => List.lookup res.1 choices
        | none => none := by
      unfold fuzzy_find
      rw [h1, h2]
      rfl
    rw [hff]
    cases hE : extractOne scorer (normalizar_cadena raw)
        (choices.map (fun p => p.1)) t with
    | none =>
      refine ⟨⟨fun _ => (extractOne_eq_none_iff _).mp hE, fun _ => rfl⟩, ?_⟩
      intro v hv
      simp at hv
    | some res =>
      obtain ⟨k, s⟩ := res
      rcases extractOne_eq_some hE with ⟨hmem, hs, hts, hmax⟩
      constructor
      · constructor
        · intro hnone
          have hnone2 : List.lookup k choices = none := hnone
          rcases lookup_of_mem_keys choices k hmem with ⟨v, hv⟩
          rw [hv] at hnone2
          cases hnone2
        · intro hall
          have := hall k hmem
          omega
      · intro v hv
        have hv2 : List.lookup k choices = some v := hv
        refine ⟨k, hmem, by omega, ?_, hv2⟩
        intro k2 hk2
        have := hmax k2 hk2
        omega

/-- Witness for C6 at concrete inputs: with threshold 85 a constant score
of 85 is accepted and a constant score of 84 is rejected; an empty query
and an empty candidate list resolve to not-found. -/
theorem fuzzy_find_spec_witness :
    fuzzy_find "" ([("a", 1)] : List (String × Nat)) (fun _ _ => 99) 85 = none ∧
    fuzzy_find "x" ([] : List (String × Nat)) (fun _ _ => 99) 85 = none ∧
    fuzzy_find "x" ([("a", 1)] : List (String × Nat)) (fun _ _ => 84) 85 = none ∧
    fuzzy_find "x" ([("a", 1)] : List (String × Nat)) (fun _ _ => 85) 85 ≠ none := by
  refine ⟨(fuzzy_find_spec (fun _ _ => 99) 85 "" [("a", 1)]).1 rfl,
    (fuzzy_find_spec (fun _ _ => 99) 85 "x" []).2.1 rfl,
    ((fuzzy_find_spec (fun _ _ => 84) 85 "x" [("a", 1)]).2.2 (by decide)
      (by decide)).1.mpr ?_, ?_⟩
  · intro k hk
    exact (by decide : (84 : Nat) < 85)
  · intro h
    have h2 := ((fuzzy_find_spec (fun _ _ => 85) 85 "x" [("a", 1)]).2.2 (by decide)
      (by decide)).1.mp h "a" (by decide)
    exact absurd h2 (by decide)

/-! ### Lemmas for `classify_rows` (C7) -/

/-- The classification fold from an arbitrary accumulator appends, to each
component, the concatenation of the per-row contributions in row order. -/
theorem classify_foldl_acc (scorer : String → String → Nat)
    (users : List (String × ZoomUser)) (meetings : List (String × ZoomMeeting))
    (users_norm : List (String × ZoomUser))
    (meetings_norm : List (String × ZoomMeeting)) :
    ∀ (rows : List (String × String))
      (acc : List (ZoomMeeting × ZoomUser) × List (ZoomMeeting × ZoomUser) ×
        List (String × String × String)),
      rows.foldl
        (fun acc row =>
          let r := classifyRow scorer users meetings users_norm meetings_norm row
          (acc.1 ++ r.1, acc.2.1 ++ r.2.1, acc.2.2 ++ r.2.2)) acc =
      (acc.1 ++ (rows.map (fun row =>
          (classifyRow scorer users meetings users_norm meetings_norm row).1)).flatten,
       acc.2.1 ++ (rows.map (fun row =>
          (classifyRow scorer users meetings users_norm meetings_norm row).2.1)).flatten,
       acc.2.2 ++ (rows.map (fun row =>
          (classifyRow scorer users meetings users_norm meetings_norm row).2.2)).flatten) := by
  intro rows
  induction rows with
  | nil =>
    intro acc
    simp
  | cons r rows ih =>
    intro acc
    rw [List.foldl_cons, ih]
    simp [List.append_assoc]

/-- **C7**: for every row the classifier resolves the meeting by exact
canonical lookup with fuzzy fallback, resolves the instructor the same way,
and classifies: an unresolved meeting yields `"Meeting not found"`
regardless of the instructor side, a resolved meeting with an unresolved
instructor yields `"Instructor not found"`, and when both resolve the row
goes to `ok` when the meeting's `host_id` equals the instructor's `id` and
to `to_update` otherwise; `classify_rows` accumulates the per-row
contributions in row order. -/
theorem classify_rows_spec (scorer : String → String → Nat)
    (users : List (String × ZoomUser)) (meetings : List (String × ZoomMeeting))
    (users_norm : List (String × ZoomUser))
    (meetings_norm : List (String × ZoomMeeting)) :
    (∀ g m, List.lookup (canonical g) meetings = some m →
      resolve_meeting scorer meetings meetings_norm g = some m) ∧
    (∀ g, List.lookup (canonical g) meetings = none →
      resolve_meeting scorer meetings meetings_norm g =
        fuzzy_find g meetings_norm scorer 85) ∧
    (∀ i u, List.lookup (canonical i) users = some u →
      resolve_user scorer users users_norm i = some u) ∧
    (∀ i, List.lookup (canonical i) users = none →
      resolve_user scorer users users_norm i = fuzzy_find i users_norm scorer 85) ∧
    (∀ g i, resolve_meeting scorer meetings meetings_norm g = none →
      classifyRow scorer users meetings users_norm meetings_norm (g, i) =
        ([], [], [(g, i, "Meeting not found")])) ∧
    (∀ g i m, resolve_meeting scorer meetings meetings_norm g = some m →
      resolve_user scorer users users_norm i = none →
      classifyRow scorer users meetings users_norm meetings_norm (g, i) =
        ([], [], [(g, i, "Instructor not found")])) ∧
    (∀ g i m u, resolve_meeting scorer meetings meetings_norm g = some m →
      resolve_user scorer users users_norm i = some u → m.host_id = u.id →
      classifyRow scorer users meetings users_norm meetings_norm (g, i) =
        ([], [(m, u)], [])) ∧
    (∀ g i m u, resolve_meeting scorer meetings meetings_norm g = some m →
      resolve_user scorer users users_norm i = some u → m.host_id ≠ u.id →
      classifyRow scorer users meetings users_norm meetings_norm (g, i) =
        ([(m, u)], [], [])) ∧
    (∀ rows, classify_rows scorer rows users meetings users_norm meetings_norm =
      ((rows.map (fun row =>
          (classifyRow scorer users meetings users_norm meetings_norm row).1)).flatten,
       (rows.map (fun row =>
          (classifyRow scorer users meetings users_norm meetings_norm row).2.1)).flatten,
       (rows.map (fun row =>
          (classifyRow scorer users meetings users_norm meetings_norm row).2.2)).flatten)) := by
  refine ⟨?_, ?_, ?_, ?_, ?_, ?_, ?_, ?_, ?_⟩
  · intro g m h
    simp [resolve_meeting, h]
  · intro g h
    simp [resolve_meeting, h]
  · intro i u h
    simp [resolve_user, h]
  · intro i h
    simp [resolve_user, h]
  · intro g i h
    simp [classifyRow, h]
  · intro g i m hm hu
    simp [classifyRow, hm, hu]
  · intro g i m u hm hu heq
    simp [classifyRow, hm, hu, heq]
  · intro g i m u hm hu hne
    simp [classifyRow, hm, hu, hne]
  · intro rows
    have h := classify_foldl_acc scorer users meetings users_norm meetings_norm
      rows ([], [], [])
    simp only [classify_rows]
    rw [h]
    simp

/-- Witness for C7 at concrete inputs: a matching host goes to `ok`, a
mismatched host goes to `to_update`, an unknown group reports
`"Meeting not found"`, an unknown instructor reports
`"Instructor not found"`, and a two-row batch accumulates the per-row
contributions in order. -/
theorem classify_rows_spec_witness :
    classifyRow (fun _ _ => 0) [("john", ⟨"h1", "e", "John", "john"⟩)]
      [("g1", ⟨"mid1", "G1", "h1", "g1"⟩)] [] [] ("G1", "John") =
      ([], [(⟨"mid1", "G1", "h1", "g1"⟩, ⟨"h1", "e", "John", "john"⟩)], []) ∧
    classifyRow (fun _ _ => 0) [("jane", ⟨"h2", "e2", "Jane", "jane"⟩)]
      [("g1", ⟨"mid1", "G1", "h1", "g1"⟩)] [] [] ("G1", "Jane") =
      ([(⟨"mid1", "G1", "h1", "g1"⟩, ⟨"h2", "e2", "Jane", "jane"⟩)], [], []) ∧
    classifyRow (fun _ _ => 0) [("john", ⟨"h1", "e", "John", "john"⟩)]
      [("g1", ⟨"mid1", "G1", "h1", "g1"⟩)] [] [] ("ZZ", "John") =
      ([], [], [("ZZ", "John", "Meeting not found")]) ∧
    classifyRow (fun _ _ => 0) [("john", ⟨"h1", "e", "John", "john"⟩)]
      [("g1", ⟨"mid1", "G1", "h1", "g1"⟩)] [] [] ("G1", "QQ") =
      ([], [], [("G1", "QQ", "Instructor not found")]) ∧
    classify_rows (fun _ _ => 0) [("G1", "John"), ("ZZ", "John")]
      [("john", ⟨"h1", "e", "John", "john"⟩)] [("g1", ⟨"mid1", "G1", "h1", "g1"⟩)]
      [] [] =
      ([], [(⟨"mid1", "G1", "h1", "g1"⟩, ⟨"h1", "e", "John", "john"⟩)],
        [("ZZ", "John", "Meeting not found")]) := by
  have hspec := classify_rows_spec (fun _ _ => 0)
    [("john", (⟨"h1", "e", "John", "john"⟩ : ZoomUser))]
    [("g1", (⟨"mid1", "G1", "h1", "g1"⟩ : ZoomMeeting))] [] []
  have hspec2 := classify_rows_spec (fun _ _ => 0)
    [("jane", (⟨"h2", "e2", "Jane", "jane"⟩ : ZoomUser))]
    [("g1", (⟨"mid1", "G1", "h1", "g1"⟩ : ZoomMeeting))] [] []
  refine ⟨?_, ?_, ?_, ?_, ?_⟩
  · exact hspec.2.2.2.2.2.2.1 "G1" "John" ⟨"mid1", "G1", "h1", "g1"⟩
      ⟨"h1", "e", "John", "john"⟩ (by decide) (by decide) (by decide)
  · exact hspec2.2.2.2.2.2.2.2.1 "G1" "Jane" ⟨"mid1", "G1", "h1", "g1"⟩
      ⟨"h2", "e2", "Jane", "jane"⟩ (by decide) (by decide) (by decide)
  · exact hspec.2.2.2.2.1 "ZZ" "John" (by decide)
  · exact hspec.2.2.2.2.2.1 "G1" "QQ" ⟨"mid1", "G1", "h1", "g1"⟩ (by decide) (by decide)
  · have h9 := hspec.2.2.2.2.2.2.2.2 [("G1", "John"), ("ZZ", "John")]
    rw [h9]
    decide
